import Mathlib

/-!
Verification of the `migration` package (database schema migrations).

The development shallowly embeds the Go sources: the DDL statement model and
action extractor (`ddl.go`), the down-migration derivation planner (`plan.go`,
`definition.go`) and the migration worker (`worker.go`).  Pure functions are
translated to Lean functions; the stateful worker is embedded as explicit
state passing over the list of persisted version rows, with an event trace of
the driver calls and migration executions it performs (only operations that
are durably committed appear in the trace; a rolled-back transaction
contributes nothing).  Go functions that run migration SQL against the
database are abstracted by success predicates supplied in the environment.
-/

namespace Migration

/-! ## DDL verbs and object types (ddl.go) -/

/-- Embeds `ddlVerb`: the verb at the beginning of an SQL DDL statement.
In Go this is a string constrained to the three values below. -/
inductive ddlVerb where
  | alter
  | create
  | drop
deriving Repr, DecidableEq, Inhabited

/-- String rendering of a `ddlVerb` (the Go value itself). -/
def ddlVerb.toStr : ddlVerb → String
  | .alter => "alter"
  | .create => "create"
  | .drop => "drop"

/-- Embeds `parseDDLVerb`: converts a lexeme to a `ddlVerb` when it is one of
the recognised verbs. -/
def parseDDLVerb (s : String) : Option ddlVerb :=
  if s = "alter" then some .alter
  else if s = "create" then some .create
  else if s = "drop" then some .drop
  else none

/-- Embeds `dbObjectType`: the supported database object types.  In Go this is
a string constrained to the nine values below. -/
inductive dbObjectType where
  | domain
  | function
  | index
  | procedure
  | sequence
  | table
  | trigger
  | type
  | view
deriving Repr, DecidableEq, Inhabited

/-- String rendering of a `dbObjectType` (the Go value itself). -/
def dbObjectType.toStr : dbObjectType → String
  | .domain => "domain"
  | .function => "function"
  | .index => "index"
  | .procedure => "procedure"
  | .sequence => "sequence"
  | .table => "table"
  | .trigger => "trigger"
  | .type => "type"
  | .view => "view"

/-- Embeds `parseDBObjectType`: converts a lexeme to a `dbObjectType` when it
is one of the recognised object types. -/
def parseDBObjectType (s : String) : Option dbObjectType :=
  if s = "domain" then some .domain
  else if s = "function" then some .function
  else if s = "index" then some .index
  else if s = "procedure" then some .procedure
  else if s = "sequence" then some .sequence
  else if s = "table" then some .table
  else if s = "trigger" then some .trigger
  else if s = "type" then some .type
  else if s = "view" then some .view
  else none

/-- Embeds `dbObjectType.ShouldRestore`: whether the automatically generated
down migration should attempt to restore the previous version of the object
(the `allDBObjectTypes` map in ddl.go). -/
def dbObjectType.ShouldRestore : dbObjectType → Bool
  | .domain => false
  | .function => true
  | .index => false
  | .procedure => true
  | .sequence => false
  | .table => false
  | .trigger => true
  | .type => false
  | .view => true

/-! ## DDL actions (ddl.go) -/

/-- Embeds `ddlAction`: a summary of the action performed by a single DDL
statement.  The `trigger` field is read by the drop-derivation branch of
plan.go; the action extractor revision in the sources never sets it, so it
stays at its zero value. -/
structure ddlAction where
  verb : ddlVerb := .create
  dropBefore : Bool := false
  checkExists : Bool := false
  checkNotExists : Bool := false
  objectType : dbObjectType := .table
  schema : String := ""
  name : String := ""
  index : String := ""
  trigger : String := ""
deriving Repr, DecidableEq, Inhabited

/-- Embeds `ddlAction.qualifiedName`: the object name, prefixed with the
schema when one was specified. -/
def ddlAction.qualifiedName (a : ddlAction) : String :=
  if a.schema ≠ "" then a.schema ++ "." ++ a.name else a.name

/-! ## Statements (ddl.go `type statement []string`) -/

/-- Embeds `statement.get`: the lexeme at index `i`, or the empty string when
the index is at or past the end of the statement (a nil statement behaves as
the empty list). -/
def stmtGet (stmt : List String) (i : Nat) : String :=
  if stmt.length ≤ i then "" else stmt.getD i ""

/-- Embeds `statement.match`: whether the statement starts with the given
lexemes; false when the statement is shorter than the probe. -/
def stmtMatch (stmt : List String) (lexemes : List String) : Bool :=
  if stmt.length < lexemes.length then false
  else (List.zip lexemes stmt).all fun p => p.2 = p.1

/-- Embeds `statement.remove`: drops the given prefix lexemes when they match,
otherwise returns the statement unchanged. -/
def stmtRemove (stmt : List String) (lexemes : List String) : List String :=
  if stmtMatch stmt lexemes then stmt.drop lexemes.length else stmt

/-! ## Action extraction (ddl.go `newDDLAction`, `newDDLActions`) -/

/-- The message of the Go runtime panic raised by an out-of-range slice
expression; the index branch of `newDDLAction` performs `stmt = stmt[1:]`
without checking that the statement is nonempty, and a slice expression with
a low bound above the slice length panics. -/
def panicSliceBounds : String := "runtime error: slice bounds out of range [1:0]"

/-- Embeds `newDDLAction`: parses one statement against the fixed DDL grammar,
returning `Except.ok none` for an unsupported command.  Every slice expression
of the source is guarded by a preceding `get` or `match` of at least its low
bound except one: in the index branch, when the statement does not continue
with `on`, the source runs `stmt = stmt[1:]` unconditionally, which panics
when the statement has already been exhausted (a `match` against a longer
probe is false, so an empty statement reaches that branch); the panic is
rendered as `Except.error`. -/
def newDDLAction (stmt0 : List String) : Except String (Option ddlAction) :=
  match parseDDLVerb (stmtGet stmt0 0) with
  | none => Except.ok none
  | some verb =>
    let stmt1 := stmt0.drop 1
    let stmt2 := if stmtMatch stmt1 ["unique", "index"] then stmt1.drop 1 else stmt1
    match parseDBObjectType (stmtGet stmt2 0) with
    | none => Except.ok none
    | some objType =>
      let stmt3 := stmt2.drop 1
      let stmt4 := stmtRemove stmt3 ["concurrently"]
      let ex : Bool × Bool × List String :=
        if stmtMatch stmt4 ["if", "exists"] then (true, false, stmt4.drop 2)
        else if stmtMatch stmt4 ["if", "not", "exists"] then (false, true, stmt4.drop 3)
        else (false, false, stmt4)
      let checkExists := ex.1
      let checkNotExists := ex.2.1
      let stmt5 := ex.2.2
      if objType = .index ∧ ¬ stmtMatch stmt5 ["on"] ∧ stmt5.isEmpty then
        Except.error panicSliceBounds
      else
      let ix : String × List String :=
        if objType = .index then
          let i0 : String × List String :=
            if ¬ stmtMatch stmt5 ["on"] then (stmtGet stmt5 0, stmt5.drop 1)
            else ("", stmt5)
          (i0.1, stmtRemove (stmtRemove i0.2 ["on"]) ["only"])
        else ("", stmt5)
      let idxName := ix.1
      let stmt6 := ix.2
      let sn : String × String :=
        if stmtGet stmt6 1 = "." then (stmtGet stmt6 0, stmtGet stmt6 2)
        else ("", stmtGet stmt6 0)
      if sn.2 = "" then Except.ok none
      else Except.ok (some { verb := verb, objectType := objType,
                             checkExists := checkExists,
                             checkNotExists := checkNotExists, schema := sn.1,
                             name := sn.2, index := idxName })

/-- Embeds the extraction loop of `newDDLActions`: one action per statement,
rejecting the whole batch (ok none) as soon as any statement is unsupported —
statements after the first unsupported one are never parsed, exactly as the
early `return nil` of the source — and propagating a panic of `newDDLAction`
as `Except.error`. -/
def extractActions : List (List String) → Except String (Option (List ddlAction))
  | [] => Except.ok (some [])
  | s :: rest =>
    match newDDLAction s with
    | Except.error e => Except.error e
    | Except.ok none => Except.ok none
    | Except.ok (some a) =>
      match extractActions rest with
      | Except.error e => Except.error e
      | Except.ok none => Except.ok none
      | Except.ok (some acts) => Except.ok (some (a :: acts))

/-- Embeds `mergeDropCreate`: a drop immediately followed by a create of the
identical object collapses into the create, marked preceded-by-drop and
carrying the checked-exists flag of the drop. -/
def mergeDropCreate : List ddlAction → List ddlAction
  | [] => []
  | [a] => [a]
  | a :: b :: rest =>
    if a.verb = .drop ∧ b.verb = .create ∧ a.objectType = b.objectType ∧
        a.schema = b.schema ∧ a.name = b.name ∧ a.index = b.index then
      { b with dropBefore := true, checkExists := a.checkExists } :: mergeDropCreate rest
    else
      a :: mergeDropCreate (b :: rest)

/-- Embeds the inner loop of `mergeCreateTable`: marks (as none) every later
alter-table or create-index entry for the same (schema, name) as the given
create-table action. -/
def absorbLater (act : ddlAction) (l : List (Option ddlAction)) : List (Option ddlAction) :=
  l.map fun o =>
    match o with
    | none => none
    | some next =>
      if next.verb = .alter ∧ next.objectType = .table ∧
          next.schema = act.schema ∧ next.name = act.name then none
      else if next.verb = .create ∧ next.objectType = .index ∧
          next.schema = act.schema ∧ next.name = act.name then none
      else some next

/-- Embeds the outer loop of `mergeCreateTable` over the nil-markable list.
The fuel argument makes the recursion structural (marking preserves the list
length, so fuel equal to the length drives the loop to completion exactly as
the Go index loop does). -/
def mctGo : Nat → List (Option ddlAction) → List (Option ddlAction)
  | _, [] => []
  | 0, l => l
  | fuel + 1, none :: rest => none :: mctGo fuel rest
  | fuel + 1, some act :: rest =>
    if act.verb = .create ∧ act.objectType = .table then
      some act :: mctGo fuel (absorbLater act rest)
    else
      some act :: mctGo fuel rest

/-- Embeds `mergeCreateTable`: removes every alter-table and create-index
action that follows a create-table action for the same (schema, name). -/
def mergeCreateTable (src : List ddlAction) : List ddlAction :=
  (mctGo src.length (src.map some)).filterMap id

/-! ## Statement tokenizer (ddl.go `newStatements`)

The low-level lexical scanner used by `newStatements` comes from an external
package (`github.com/jjeffery/sqlr/private/scanner`) that is not part of this
repository. -/

/-- Modelled from the spec: lexeme characters.  Identifier/number lexemes are
maximal runs of alphanumeric or underscore characters; every other
non-whitespace character is a single-character lexeme (spec, section 4.1). -/
def isIdentChar (c : Char) : Bool :=
  c.isAlphanum || c = '_'

/-- Modelled from the spec: the scanner splits raw SQL text into lexemes,
discarding whitespace and line comments introduced by `--` (spec, section
4.1).  The Bool argument is set while the rest of a comment line is being
skipped; the first list argument accumulates the identifier run currently
being read, in reverse. -/
def scanLex : Bool → List Char → List Char → List String
  | true, _, [] => []
  | true, buf, c :: cs =>
    if c = '\n' then scanLex false buf cs else scanLex true buf cs
  | false, buf, [] => if buf.isEmpty then [] else [String.mk buf.reverse]
  | false, buf, c :: cs =>
    if isIdentChar c then scanLex false (c :: buf) cs
    else
      let flushed := if buf.isEmpty then [] else [String.mk buf.reverse]
      if c = '-' ∧ cs.headD ' ' = '-' then
        flushed ++ scanLex true [] cs
      else if c.isWhitespace then
        flushed ++ scanLex false [] cs
      else
        flushed ++ ([String.mk [c]] ++ scanLex false [] cs)

/-- Modelled from the spec: all lexemes of the given characters. -/
def scanLexemes (cs : List Char) : List String :=
  scanLex false [] cs

/-- The keyword set registered by `newStatements` (ddl.go); keywords are
recognised case-insensitively and emitted in lower case. -/
def ddlKeywords : List String :=
  ["concurrently", "create", "domain", "drop", "exists", "function", "if",
   "index", "on", "only", "not", "procedure", "table", "trigger", "unique",
   "view"]

/-- Modelled from the spec: ASCII lower-casing of a character (keyword
recognition is case-insensitive; SQL keywords are ASCII). -/
def lowerChar (c : Char) : Char :=
  if 'A' ≤ c ∧ c ≤ 'Z' then Char.ofNat (c.toNat + 32) else c

/-- Modelled from the spec: ASCII lower-casing of a lexeme. -/
def strToLower (s : String) : String :=
  String.mk (s.toList.map lowerChar)

/-- Modelled from the spec: keyword lexemes are lower-cased, all other lexemes
are preserved verbatim (spec, section 4.1). -/
def normalizeLexeme (l : String) : String :=
  if ddlKeywords.contains (strToLower l) then strToLower l else l

/-- Embeds the statement-splitting loop of `newStatements`: lexemes accumulate
into the current statement, a `;` lexeme closes it, and a trailing statement
without a terminating semicolon is still emitted. -/
def splitStmts (acc : List String) : List String → List (List String)
  | [] => if acc.isEmpty then [] else [acc.reverse]
  | l :: rest =>
    if l = ";" then (acc.reverse ++ [l]) :: splitStmts [] rest
    else splitStmts (l :: acc) rest

/-- Embeds `newStatements`: tokenize raw SQL into statements (the scanner
itself is modelled from the spec, see `scanLexemes`). -/
def newStatements (sql : String) : List (List String) :=
  splitStmts [] ((scanLexemes sql.toList).map normalizeLexeme)

/-- Embeds `newDDLActions`: tokenize, extract one action per statement
(rejecting the whole batch when any statement is unsupported, which yields the
empty list just as a nil Go slice does), then run the two merge passes.  A
panic of `newDDLAction` propagates as `Except.error`. -/
def newDDLActions (sql : String) : Except String (List ddlAction) :=
  match extractActions (newStatements sql) with
  | Except.error e => Except.error e
  | Except.ok none => Except.ok []
  | Except.ok (some acts) => Except.ok (mergeCreateTable (mergeDropCreate acts))

/-- Embeds `ddlActions.find` (helper): linear search for the first action
matching the verb, object type, schema and name. -/
def findFrom (verb : ddlVerb) (objType : dbObjectType) (schema name : String) :
    List ddlAction → Option ddlAction
  | [] => none
  | a :: rest =>
    if a.verb = verb ∧ a.objectType = objType ∧ a.schema = schema ∧ a.name = name then
      some a
    else findFrom verb objType schema name rest

/-- Embeds `ddlActions.find`: searches the action list backwards (the source
walks the index from the end), returning the most recent matching action. -/
def ddlActionsFind (acts : List ddlAction) (verb : ddlVerb) (objType : dbObjectType)
    (schema name : String) : Option ddlAction :=
  findFrom verb objType schema name acts.reverse

/-! ## Definitions (definition.go) -/

/-- Embeds `Definition`: one authored schema version.  The Go function fields
(`upDB`, `upTx`, `downDB`, `downTx`) are abstracted by presence booleans; the
worker environment supplies their abstract outcome. -/
structure Definition where
  id : Int
  upSQL : String := ""
  upDB : Bool := false
  upTx : Bool := false
  downSQL : String := ""
  downDB : Bool := false
  downTx : Bool := false
deriving Repr, DecidableEq, Inhabited

/-- Embeds `Error` (migration.go): a schema validation error. -/
structure MError where
  version : Int
  description : String
deriving Repr, DecidableEq, Inhabited

/-- Renders a list of method names the way Go fmt renders a string slice. -/
def fmtMethods (l : List String) : String :=
  "[" ++ String.intercalate " " l ++ "]"

/-- Embeds `Definition.downMethods`: the names of the down-migration methods
that have been called on the definition. -/
def Definition.downMethods (d : Definition) : List String :=
  (if d.downSQL ≠ "" then ["Down"] else []) ++
  (if d.downDB then ["DownDB"] else []) ++
  (if d.downTx then ["DownTx"] else [])

/-- Embeds `Definition.errs`: validation of the up/down executor counts. -/
def Definition.errs (d : Definition) : List MError :=
  let upMethods :=
    (if d.upSQL ≠ "" then ["Up"] else []) ++
    (if d.upDB then ["UpDB"] else []) ++
    (if d.upTx then ["UpTx"] else [])
  (if upMethods.length > 1 then
    [⟨d.id, "call only one of " ++ fmtMethods upMethods⟩] else []) ++
  (if upMethods.length = 0 then
    [⟨d.id, "call one of [Up UpDB UpTx]"⟩] else []) ++
  (if d.downMethods.length > 1 then
    [⟨d.id, "call only one of " ++ fmtMethods d.downMethods⟩] else [])

/-! ## Migration plans and down-SQL derivation (plan.go) -/

/-- Embeds `migrationPlan`: one finalised version.  The previous-plan link of
the Go struct is not stored in the structure; plan construction instead takes
the chain of earlier plans (most recent first) as an argument, which the spec
notes is an equivalent rendering of the lookback-only pointer chain. -/
structure migrationPlan where
  id : Int
  defn : Definition
  errs : List MError
  downSQL : String
  actions : List ddlAction
deriving Repr, DecidableEq, Inhabited

/-- Embeds the drop-statement formatting shared by the two derivation paths:
`drop <type> <qualified-name>;` followed by a newline. -/
def dropStmt (a : ddlAction) : String :=
  "drop " ++ a.objectType.toStr ++ " " ++ a.qualifiedName ++ ";\n"

/-- The predicate counted as `shouldRestore` by `deriveDownSQL`: a create or
drop of a restorable object type. -/
def isRestorableAct (a : ddlAction) : Bool :=
  decide ((a.verb = .create ∨ a.verb = .drop) ∧ a.objectType.ShouldRestore = true)

/-- The predicate counted as `shouldDrop` by `deriveDownSQL`: a create of a
non-restorable object type. -/
def isDroppableAct (a : ddlAction) : Bool :=
  decide (a.verb = .create ∧ a.objectType.ShouldRestore = false)

/-- Embeds the `shouldRestore` counter of `deriveDownSQL`. -/
def restorableCount (actions : List ddlAction) : Nat :=
  actions.countP isRestorableAct

/-- Embeds the `shouldDrop` counter of `deriveDownSQL`. -/
def droppableCount (actions : List ddlAction) : Nat :=
  actions.countP isDroppableAct

/-- Embeds the isolation-rule error loop of `deriveDownSQL`: one error per
action of restorable object type. -/
def isolationErrors (id : Int) (actions : List ddlAction) : List MError :=
  (actions.filter fun a => a.objectType.ShouldRestore).map fun a =>
    ⟨id, a.verb.toStr ++ " " ++ a.objectType.toStr ++ " " ++ a.qualifiedName ++
      " in its own migration"⟩

/-- Embeds the reversibility-check loop of `deriveDownSQL`: every action that
is not a create and not a drop of a restorable object needs a manual down
migration. -/
def manualDownErrors (id : Int) (actions : List ddlAction) : List MError :=
  (actions.filter fun a =>
      ¬ (a.verb = .drop ∧ a.objectType.ShouldRestore = true) ∧ a.verb ≠ .create).map
    fun a =>
      ⟨id, a.verb.toStr ++ " " ++ a.objectType.toStr ++ " " ++ a.qualifiedName ++
        " needs a manual down migration"⟩

/-- Embeds the previous-plan walk of `deriveDownSQLRestore`: the most recent
earlier plan whose actions contain a create of the same object type, schema
and name, together with that matching action. -/
def findPrevPlan (act : ddlAction) : List migrationPlan → Option (migrationPlan × ddlAction)
  | [] => none
  | q :: rest =>
    match ddlActionsFind q.actions .create act.objectType act.schema act.name with
    | some pa => some (q, pa)
    | none => findPrevPlan act rest

/-- Embeds `deriveDownSQLRestore`: the drop statement (omitted when the prior
create is itself preceded by a drop) followed by the entire up SQL of the
prior version, or a single drop statement when no prior version exists.  The
source reads `p.actions[0]`; callers guarantee a nonempty action list. -/
def deriveDownSQLRestore (actions : List ddlAction) (prevs : List migrationPlan) : String :=
  let act := actions.headD default
  match findPrevPlan act prevs with
  | some (q, prevAct) =>
    (if prevAct.dropBefore then "" else dropStmt act) ++ q.defn.upSQL
  | none => dropStmt act

/-- Embeds the per-action validation of `deriveDownSQLDrop`: dropping an index
or a trigger records an error requiring a manual down migration (the trigger
branch reads the `trigger` field of the action). -/
def indexTriggerErrors (id : Int) (a : ddlAction) : List MError :=
  (if a.objectType = .index then
    [⟨id,
      if a.index = "" then
        a.verb.toStr ++ " " ++ a.objectType.toStr ++ " on " ++ a.qualifiedName ++
          " needs a manual down migration"
      else
        a.verb.toStr ++ " " ++ a.objectType.toStr ++ " " ++ a.index ++ " on " ++
          a.qualifiedName ++ " needs a manual down migration"⟩]
   else []) ++
  (if a.objectType = .trigger then
    [⟨id, a.verb.toStr ++ " " ++ a.objectType.toStr ++ " " ++ a.trigger ++ " on " ++
      a.qualifiedName ++ " needs a manual down migration"⟩]
   else [])

/-- Embeds `deriveDownSQLDrop`: one drop statement per action, emitted in
reverse order of the action list, plus the index/trigger validation errors in
the same reverse order. -/
def deriveDownSQLDrop (id : Int) (actions : List ddlAction) : String × List MError :=
  let rev := actions.reverse
  (String.join (rev.map dropStmt), (rev.map (indexTriggerErrors id)).flatten)

/-- Embeds `deriveDownSQL`: classification, the isolation rule, the skip
conditions, the reversibility check and the dispatch to the restore or drop
path.  Returns the derived down SQL and the validation errors recorded. -/
def deriveDownSQL (defn : Definition) (actions : List ddlAction)
    (prevs : List migrationPlan) : String × List MError :=
  let shouldRestore := restorableCount actions
  let shouldDrop := droppableCount actions
  if shouldRestore > 1 ∨ (shouldRestore > 0 ∧ shouldDrop > 0) then
    ("", isolationErrors defn.id actions)
  else if defn.downMethods.length > 0 then ("", [])
  else if actions.length = 0 then ("", [])
  else
    let merrs := manualDownErrors defn.id actions
    if merrs.length > 0 then ("", merrs)
    else if shouldRestore > 0 then (deriveDownSQLRestore actions prevs, [])
    else if shouldDrop > 0 then deriveDownSQLDrop defn.id actions
    else ("", [])

/-- Embeds `migrationPlan.checkErrors`: when no down method was called and no
down SQL was derived, record the catch-all error. -/
def checkErrors (defn : Definition) (downSQL : String) : List MError :=
  if defn.downMethods.length = 0 ∧ downSQL = "" then
    [⟨defn.id, "call one of [Down DownDB DownTx]"⟩]
  else []

/-- Embeds `newPlan`: extract the actions from the up SQL, derive the down
SQL, and collect the validation errors.  A panic of the extraction propagates
as `Except.error`. -/
def newPlan (defn : Definition) (prevs : List migrationPlan) :
    Except String migrationPlan :=
  match newDDLActions defn.upSQL with
  | Except.error e => Except.error e
  | Except.ok actions =>
    let der := deriveDownSQL defn actions prevs
    Except.ok
      { id := defn.id, defn := defn,
        errs := defn.errs ++ der.2 ++ checkErrors defn der.1,
        downSQL := der.1, actions := actions }

/-- Modelled from the spec: the `Schema` type is not under src/ (only its
tests and callers are).  Per the spec it aggregates the definitions and
builds one plan per definition in order, each linked to the previous plan.
Here the chain of earlier plans is a list with the most recent plan first,
and the resulting plan list is in definition order.  A panic of `newPlan`
propagates. -/
def mkPlansAux : List Definition → List migrationPlan →
    Except String (List migrationPlan)
  | [], prevs => Except.ok prevs.reverse
  | d :: rest, prevs =>
    match newPlan d prevs with
    | Except.error e => Except.error e
    | Except.ok p => mkPlansAux rest (p :: prevs)

/-- Builds the plan list for a list of definitions (see `mkPlansAux`). -/
def mkPlans (defs : List Definition) : Except String (List migrationPlan) :=
  mkPlansAux defs []

/-- The plan list of a definition list whose construction raises no panic
(the error branch is never taken for any of the concrete scenario inputs
below, each of which evaluates to the ok branch). -/
def plansOf (defs : List Definition) : List migrationPlan :=
  match mkPlans defs with
  | Except.ok ps => ps
  | Except.error _ => []

/-! ## Persisted versions and the driver contract (migration.go, worker.go)

The driver collaborator (one per database dialect) is external to the core;
its contract is given in the spec (section 6).  Its bookkeeping operations
are embedded as pure updates of the list of persisted version rows, and
`ListVersions` returns the rows in ascending id order. -/

/-- Embeds `Version`: a persisted or synthesised database schema version. -/
structure Version where
  id : Int
  appliedAt : Option Nat := none
  failed : Bool := false
  locked : Bool := false
  up : String := ""
  down : String := ""
deriving Repr, DecidableEq, Inhabited

/-- Driver `InsertVersion`: appends a row. -/
def insertVersionRow (rows : List Version) (v : Version) : List Version :=
  rows ++ [v]

/-- Driver `DeleteVersion`: removes the row with the given id. -/
def deleteVersionRow (rows : List Version) (id : Int) : List Version :=
  rows.filter fun v => v.id ≠ id

/-- Driver `SetVersionFailed`: sets the failed flag of the row with the given
id. -/
def setVersionFailedRow (rows : List Version) (id : Int) (b : Bool) : List Version :=
  rows.map fun v => if v.id = id then { v with failed := b } else v

/-- Driver `SetVersionLocked`: sets the locked flag of the row with the given
id. -/
def setVersionLockedRow (rows : List Version) (id : Int) (b : Bool) : List Version :=
  rows.map fun v => if v.id = id then { v with locked := b } else v

/-- One durable database operation performed by the worker: a driver call on
the bookkeeping table, or the execution of a migration (up or down) of a
version.  Only committed operations are traced; a rolled-back transaction
contributes nothing. -/
inductive dbCall where
  | insertVersion (v : Version)
  | deleteVersion (id : Int)
  | setVersionFailed (id : Int) (failed : Bool)
  | setVersionLocked (id : Int) (locked : Bool)
  | execUp (id : Int)
  | execDown (id : Int)
deriving Repr, DecidableEq

/-- The worker environment: the schema plans (ascending id order), whether
the driver supports transactional DDL, the abstract outcome of executing each
up and down migration, and the clock value used for applied-at timestamps. -/
structure WorkerEnv where
  plans : List migrationPlan
  supportsTxDDL : Bool
  upOk : Int → Bool
  downOk : Int → Bool
  now : Nat

/-! ## Version summaries (worker.go `getVersionSummary*`) -/

/-- Embeds `versionSummary`: the computed aggregate of all known versions. -/
structure versionSummary where
  id : Int := 0
  versions : List Version := []
  applied : List migrationPlan := []
  unapplied : List migrationPlan := []
deriving Repr, Inhabited

/-- Lookup in the `vmap` of a version summary (id to version). -/
def vsLookup (vs : versionSummary) (id : Int) : Option Version :=
  vs.versions.find? fun v => decide (v.id = id)

/-- Embeds the `ver.Up`/`ver.Down` description assignment performed for each
plan while the summary is built. -/
def setUpDown (p : migrationPlan) (v : Version) : Version :=
  let v1 :=
    if p.defn.upSQL ≠ "" then { v with up := p.defn.upSQL }
    else if p.defn.upDB then { v with up := "(DBFunc)" }
    else if p.defn.upTx then { v with up := "(TxFunc)" }
    else v
  if p.downSQL ≠ "" then { v1 with down := p.downSQL }
  else if p.defn.downSQL ≠ "" then { v1 with down := p.defn.downSQL }
  else if p.defn.downDB then { v1 with down := "(DBFunc)" }
  else if p.defn.downTx then { v1 with down := "(TxFunc)" }
  else v1

/-- Embeds the plan loop of `getVersionSummaryAllowFailed`: each plan is
classified as applied or unapplied; unapplied versions are synthesised with
only an id; the up/down descriptions are filled in for both. -/
def summaryFold (appliedIds : List Int) : versionSummary → List migrationPlan →
    versionSummary
  | vs, [] => vs
  | vs, p :: rest =>
    let vs1 :=
      if appliedIds.contains p.defn.id then
        { vs with applied := vs.applied ++ [p],
                  versions := vs.versions.map fun v =>
                    if v.id = p.defn.id then setUpDown p v else v }
      else
        { vs with unapplied := vs.unapplied ++ [p],
                  versions := vs.versions ++ [setUpDown p { id := p.defn.id }] }
    summaryFold appliedIds vs1 rest

/-- Sorts versions ascending by id (the final sort of the summary and the
driver contract for ListVersions; ids are unique, so any comparison sort
yields this result). -/
def sortVersionsAsc (l : List Version) : List Version :=
  l.insertionSort fun a b => a.id ≤ b.id

/-- Sorts plans descending by id (the applied-plan sort of the summary). -/
def sortPlansDesc (l : List migrationPlan) : List migrationPlan :=
  l.insertionSort fun a b => b.defn.id ≤ a.defn.id

/-- Sorts plans ascending by id (the unapplied-plan sort of the summary). -/
def sortPlansAsc (l : List migrationPlan) : List migrationPlan :=
  l.insertionSort fun a b => a.defn.id ≤ b.defn.id

/-- Embeds `getVersionSummaryAllowFailed`: builds the version summary from
the persisted rows and the schema plans. -/
def getVersionSummaryAllowFailed (env : WorkerEnv) (rows : List Version) :
    versionSummary :=
  let versions := sortVersionsAsc rows
  let maxId := versions.foldl (fun m v => if v.id > m then v.id else m) 0
  let vs0 : versionSummary := { id := maxId, versions := versions }
  let vs := summaryFold (rows.map (·.id)) vs0 env.plans
  { vs with versions := sortVersionsAsc vs.versions,
            applied := sortPlansDesc vs.applied,
            unapplied := sortPlansAsc vs.unapplied }

/-- The first failed version of a summary, if any. -/
def firstFailed (vs : versionSummary) : Option Version :=
  vs.versions.find? fun v => v.failed

/-- Embeds `getVersionSummary`: as `getVersionSummaryAllowFailed`, but any
failed version aborts with the previously-failed error. -/
def getVersionSummary (env : WorkerEnv) (rows : List Version) :
    Except String versionSummary :=
  let vs := getVersionSummaryAllowFailed env rows
  match firstFailed vs with
  | some v => .error (toString v.id ++ ": previously failed")
  | none => .ok vs

/-- Embeds the walk of `versionSummary.checkLocked` over the applied plans
(most recent first): stop at the first plan at or below the target id, fail
on the first locked plan visited before that. -/
def checkLockedGo (vs : versionSummary) (id : Int) : List migrationPlan → Option String
  | [] => none
  | p :: rest =>
    if p.defn.id ≤ id then none
    else if ((vsLookup vs p.defn.id).map (·.locked)).getD false then
      some ("database version locked id=" ++ toString p.defn.id)
    else checkLockedGo vs id rest

/-- Embeds `versionSummary.checkLocked`. -/
def checkLocked (vs : versionSummary) (id : Int) : Option String :=
  checkLockedGo vs id vs.applied

/-! ## Worker operations (worker.go)

Each operation returns the resulting rows, the trace of durable operations,
and an optional error string; single steps additionally report whether more
work remains.  The loops of Up/Down/Goto are embedded with an explicit fuel
parameter (the Go loops run until the step reports no more work; any fuel at
least the number of pending steps behaves identically). -/

/-- Result of a worker operation. -/
structure OpResult where
  rows : List Version
  calls : List dbCall
  err : Option String := none
deriving Repr

/-- Result of a single migration step. -/
structure StepResult where
  rows : List Version
  calls : List dbCall
  more : Bool := false
  err : Option String := none
deriving Repr

/-- Embeds `upOneNoTx`: the non-transactional up escalation.  A version row
with the failed flag set is inserted in its own transaction, the migration is
executed directly against the database, and on success a follow-up
transaction clears the failed flag. -/
def upOneNoTx (env : WorkerEnv) (rows : List Version) (id : Int) : StepResult :=
  match env.plans.find? (fun p => decide (p.defn.id = id)) with
  | none => ⟨rows, [], false, some ("missing plan for version " ++ toString id)⟩
  | some _plan =>
    let ver : Version := { id := id, appliedAt := some env.now, failed := true }
    let rows1 := insertVersionRow rows ver
    if env.upOk id then
      ⟨setVersionFailedRow rows1 id false,
       [.insertVersion ver, .execUp id, .setVersionFailed id false], false, none⟩
    else
      ⟨rows1, [.insertVersion ver, .execUp id], false,
       some (toString id ++ ": up migration failed")⟩

/-- Embeds `downOneNoTx`: the non-transactional down escalation.  The source
comment says the version is marked as failed before the migration runs, but
the call passes false to `SetVersionFailed`; the embedding reproduces the
call as written.  On success the version row is deleted. -/
def downOneNoTx (env : WorkerEnv) (rows : List Version) (id : Int) : StepResult :=
  match env.plans.find? (fun p => decide (p.defn.id = id)) with
  | none => ⟨rows, [], false, some ("missing plan for version " ++ toString id)⟩
  | some _plan =>
    let rows1 := setVersionFailedRow rows id false
    if env.downOk id then
      ⟨deleteVersionRow rows1 id,
       [.setVersionFailed id false, .execDown id, .deleteVersion id], false, none⟩
    else
      ⟨rows1, [.setVersionFailed id false, .execDown id], false,
       some (toString id ++ ": down migration failed")⟩

/-- Embeds `upOne`: apply the lowest unapplied plan, inside the transaction
when possible, escalating out of band otherwise. -/
def upOne (env : WorkerEnv) (rows : List Version) : StepResult :=
  match getVersionSummary env rows with
  | .error e => ⟨rows, [], false, some e⟩
  | .ok vs =>
    match vs.unapplied with
    | [] => ⟨rows, [], false, none⟩
    | plan :: restUnapplied =>
      let more := restUnapplied.length > 0
      let id := plan.defn.id
      if plan.defn.upTx then
        if env.upOk id then
          let ver : Version := { id := id, appliedAt := some env.now }
          ⟨insertVersionRow rows ver, [.execUp id, .insertVersion ver], more, none⟩
        else ⟨rows, [], more, some (toString id ++ ": up migration failed")⟩
      else if ¬ env.supportsTxDDL ∨ plan.defn.upDB then
        let r := upOneNoTx env rows id
        ⟨r.rows, r.calls, more, r.err⟩
      else
        if env.upOk id then
          let ver : Version := { id := id, appliedAt := some env.now }
          ⟨insertVersionRow rows ver, [.execUp id, .insertVersion ver], more, none⟩
        else ⟨rows, [], more, some (toString id ++ ": up migration failed")⟩

/-- Embeds `downOne`: reverse the highest applied plan.  A locked version is
a soft stop (no step, no error, nothing more to do). -/
def downOne (env : WorkerEnv) (rows : List Version) : StepResult :=
  match getVersionSummary env rows with
  | .error e => ⟨rows, [], false, some e⟩
  | .ok vs =>
    match vs.applied with
    | [] => ⟨rows, [], false, none⟩
    | plan :: restApplied =>
      match vs.versions.find? (fun v => decide (v.id = plan.defn.id)) with
      | none =>
        -- unreachable: every applied plan has a version row (the Go code
        -- dereferences the pointer unconditionally)
        ⟨rows, [], false, some "internal: version not found"⟩
      | some version =>
        if version.locked then ⟨rows, [], false, none⟩
        else
          let more := restApplied.length > 0
          let id := plan.defn.id
          if plan.defn.downTx then
            if env.downOk id then
              ⟨deleteVersionRow rows id, [.execDown id, .deleteVersion id], more, none⟩
            else ⟨rows, [], more, some (toString id ++ ": down migration failed")⟩
          else if ¬ env.supportsTxDDL ∨ plan.defn.downDB then
            let r := downOneNoTx env rows id
            match r.err with
            | some e => ⟨r.rows, r.calls, false, some e⟩
            | none => ⟨r.rows, r.calls, more, none⟩
          else
            if env.downOk id then
              ⟨deleteVersionRow rows id, [.execDown id, .deleteVersion id], more, none⟩
            else ⟨rows, [], more, some (toString id ++ ": down migration failed")⟩

/-- Embeds the down-step count of `gotoOne`: applied plans above the target,
stopping at the first plan at or below it. -/
def countDownGo (id : Int) : List migrationPlan → Nat
  | [] => 0
  | p :: rest => if p.defn.id ≤ id then 0 else 1 + countDownGo id rest

/-- Embeds the up-step count of `gotoOne`: unapplied plans at or below the
target, stopping at the first plan above it. -/
def countUpGo (id : Int) : List migrationPlan → Nat
  | [] => 0
  | p :: rest => if p.defn.id > id then 0 else 1 + countUpGo id rest

/-- Embeds `gotoOne`: check locks, count pending steps in both directions,
perform one step (down preferred), and report whether more remain. -/
def gotoOne (env : WorkerEnv) (rows : List Version) (id : Int) : StepResult :=
  match getVersionSummary env rows with
  | .error e => ⟨rows, [], false, some e⟩
  | .ok vs =>
    match checkLocked vs id with
    | some e => ⟨rows, [], false, some e⟩
    | none =>
      let downCount := countDownGo id vs.applied
      let upCount := countUpGo id vs.unapplied
      if downCount > 0 then
        let r := downOne env rows
        match r.err with
        | some e => ⟨r.rows, r.calls, false, some e⟩
        | none => ⟨r.rows, r.calls, (downCount - 1) + upCount > 0, none⟩
      else if upCount > 0 then
        let r := upOne env rows
        match r.err with
        | some e => ⟨r.rows, r.calls, false, some e⟩
        | none => ⟨r.rows, r.calls, downCount + (upCount - 1) > 0, none⟩
      else ⟨rows, [], false, none⟩

/-- Modelled from the spec: the Worker checks ids against the definitions map
of the `Schema`, whose source is not under src/.  Per the spec the defined
ids are those of the plans, and Goto additionally accepts id 0 meaning fully
down (section 4.4). -/
def checkVersion (env : WorkerEnv) (id : Int) : Option String :=
  if id = 0 ∨ env.plans.any (fun p => decide (p.defn.id = id)) then none
  else some ("invalid schema version id=" ++ toString id)

/-- Embeds the loop of `Worker.Up` (fuelled). -/
def upLoop (env : WorkerEnv) : Nat → List Version → OpResult
  | 0, rows => ⟨rows, [], none⟩
  | fuel + 1, rows =>
    let r := upOne env rows
    match r.err with
    | some e => ⟨r.rows, r.calls, some e⟩
    | none =>
      if r.more then
        let r2 := upLoop env fuel r.rows
        ⟨r2.rows, r.calls ++ r2.calls, r2.err⟩
      else ⟨r.rows, r.calls, none⟩

/-- Embeds `Worker.Up`: repeatedly apply the lowest unapplied plan. -/
def Worker.Up (env : WorkerEnv) (fuel : Nat) (rows : List Version) : OpResult :=
  upLoop env fuel rows

/-- Embeds the loop of `Worker.Down` (fuelled). -/
def downLoop (env : WorkerEnv) : Nat → List Version → OpResult
  | 0, rows => ⟨rows, [], none⟩
  | fuel + 1, rows =>
    let r := downOne env rows
    match r.err with
    | some e => ⟨r.rows, r.calls, some e⟩
    | none =>
      if r.more then
        let r2 := downLoop env fuel r.rows
        ⟨r2.rows, r.calls ++ r2.calls, r2.err⟩
      else ⟨r.rows, r.calls, none⟩

/-- Embeds `Worker.Down`: repeatedly reverse the highest applied plan. -/
def Worker.Down (env : WorkerEnv) (fuel : Nat) (rows : List Version) : OpResult :=
  downLoop env fuel rows

/-- Embeds the loop of `Worker.Goto` (fuelled). -/
def gotoLoop (env : WorkerEnv) (id : Int) : Nat → List Version → OpResult
  | 0, rows => ⟨rows, [], none⟩
  | fuel + 1, rows =>
    let r := gotoOne env rows id
    match r.err with
    | some e => ⟨r.rows, r.calls, some e⟩
    | none =>
      if r.more then
        let r2 := gotoLoop env id fuel r.rows
        ⟨r2.rows, r.calls ++ r2.calls, r2.err⟩
      else ⟨r.rows, r.calls, none⟩

/-- Embeds `Worker.Goto`: migrate up or down to the given version. -/
def Worker.Goto (env : WorkerEnv) (fuel : Nat) (rows : List Version) (id : Int) :
    OpResult :=
  match checkVersion env id with
  | some e => ⟨rows, [], some e⟩
  | none => gotoLoop env id fuel rows

/-- Embeds `Worker.Versions`: all known versions ascending, rejecting any
failed state. -/
def Worker.Versions (env : WorkerEnv) (rows : List Version) :
    Except String (List Version) :=
  match getVersionSummary env rows with
  | .error e => .error e
  | .ok vs => .ok vs.versions

/-- Embeds `Worker.Version`: the full version record for a defined id,
tolerating failed states in the data. -/
def Worker.Version (env : WorkerEnv) (rows : List Version) (id : Int) :
    Except String Version :=
  match checkVersion env id with
  | some e => .error e
  | none =>
    let vs := getVersionSummaryAllowFailed env rows
    match vs.versions.find? (fun v => decide (v.id = id)) with
    | some v => .ok v
    | none => .error ("cannot find version " ++ toString id)

/-- Embeds the version loop of `Worker.Force`: for every known version above
the target the driver is asked to delete a version, and for every failed
version at or below it the driver is asked to clear a failed flag.  In both
branches the source passes the target id, not the id of the version being
visited. -/
def forceLoop (rows : List Version) (id : Int) : List Version → OpResult
  | [] => ⟨rows, [], none⟩
  | v :: rest =>
    if v.id > id then
      let r := forceLoop (deleteVersionRow rows id) id rest
      ⟨r.rows, dbCall.deleteVersion id :: r.calls, r.err⟩
    else if v.failed then
      let r := forceLoop (setVersionFailedRow rows id false) id rest
      ⟨r.rows, dbCall.setVersionFailed id false :: r.calls, r.err⟩
    else forceLoop rows id rest

/-- Embeds `Worker.Force`: administrative repair to a specific version. -/
def Worker.Force (env : WorkerEnv) (rows : List Migration.Version) (id : Int) :
    OpResult :=
  match checkVersion env id with
  | some e => ⟨rows, [], some e⟩
  | none =>
    let vs := getVersionSummaryAllowFailed env rows
    match checkLocked vs id with
    | some e => ⟨rows, [], some e⟩
    | none =>
      if vs.applied.any (fun p => decide (p.defn.id = id)) then
        forceLoop rows id vs.versions
      else ⟨rows, [], some ("cannot force unapplied version id=" ++ toString id)⟩

/-- Embeds `lockHelper`: toggle the locked flag of an applied version. -/
def lockHelper (env : WorkerEnv) (rows : List Version) (id : Int) (verb : String)
    (lock : Bool) : OpResult :=
  match checkVersion env id with
  | some e => ⟨rows, [], some e⟩
  | none =>
    match getVersionSummary env rows with
    | .error e => ⟨rows, [], some e⟩
    | .ok vs =>
      if vs.applied.any (fun p => decide (p.defn.id = id)) then
        ⟨setVersionLockedRow rows id lock, [.setVersionLocked id lock], none⟩
      else ⟨rows, [], some ("cannot " ++ verb ++ " unapplied version id=" ++ toString id)⟩

/-- Embeds `Worker.Lock`. -/
def Worker.Lock (env : WorkerEnv) (rows : List Migration.Version) (id : Int) :
    OpResult :=
  lockHelper env rows id "lock" true

/-- Embeds `Worker.Unlock`. -/
def Worker.Unlock (env : WorkerEnv) (rows : List Migration.Version) (id : Int) :
    OpResult :=
  lockHelper env rows id "unlock" false

/-! ## Claim-side characterisation of the create-table absorption (C7) -/

/-- The absorption predicate of the create-table merge, phrased over the set
of (schema, name) pairs of create-table actions seen so far: an alter-table
or create-index action is absorbed exactly when its table was already
created. -/
def absorbedBy (seen : List (String × String)) (a : ddlAction) : Prop :=
  ((a.verb = .alter ∧ a.objectType = .table) ∨
   (a.verb = .create ∧ a.objectType = .index)) ∧ (a.schema, a.name) ∈ seen

instance (seen : List (String × String)) (a : ddlAction) :
    Decidable (absorbedBy seen a) := by
  unfold absorbedBy
  infer_instance

/-- Claim-side rendering of the create-table absorption: walk the action list
in order, dropping every absorbed action and keeping everything else in its
original relative order, extending the seen set at each create-table
action. -/
def mergeCreateTableSpec (seen : List (String × String)) :
    List ddlAction → List ddlAction
  | [] => []
  | a :: rest =>
    if absorbedBy seen a then mergeCreateTableSpec seen rest
    else
      a :: mergeCreateTableSpec
        (if a.verb = .create ∧ a.objectType = .table then
          (a.schema, a.name) :: seen
        else seen) rest

/-- Marks every action already absorbed by the seen set as none. -/
def markAbsorbed (seen : List (String × String)) (l : List ddlAction) :
    List (Option ddlAction) :=
  l.map fun a => if absorbedBy seen a then none else some a

/-- A one-version environment used to evaluate the non-transactional
escalation paths. -/
def exEnvA : WorkerEnv :=
  { plans := plansOf [{ id := 1, upSQL := "create table t1;" }],
    supportsTxDDL := true, upOk := fun _ => true, downOk := fun _ => true,
    now := 0 }

/-- A two-version environment with versions 10 and 20 applied and version 10
left failed by a crashed non-transactional migration. -/
def exEnvB : WorkerEnv :=
  { plans := plansOf [{ id := 10, upSQL := "create table t1;" },
                      { id := 20, upSQL := "create table t2;" }],
    supportsTxDDL := true, upOk := fun _ => true, downOk := fun _ => true,
    now := 0 }

/-- The rows for the Force scenario: versions 10 (failed) and 20 applied. -/
def exRowsB : List Version :=
  [{ id := 10, appliedAt := some 0, failed := true },
   { id := 20, appliedAt := some 0 }]

/-! ## Proof-side definitions for the worker theorems -/

instance : IsTotal migrationPlan (fun a b => a.defn.id ≤ b.defn.id) :=
  ⟨fun a b => le_total a.defn.id b.defn.id⟩

instance : IsTrans migrationPlan (fun a b => a.defn.id ≤ b.defn.id) :=
  ⟨fun _ _ _ h1 h2 => le_trans h1 h2⟩

instance : IsTotal migrationPlan (fun a b => b.defn.id ≤ a.defn.id) :=
  ⟨fun a b => le_total b.defn.id a.defn.id⟩

instance : IsTrans migrationPlan (fun a b => b.defn.id ≤ a.defn.id) :=
  ⟨fun _ _ _ h1 h2 => le_trans h2 h1⟩

/-- The target version id is strictly above the target and both defined and
applied with its row locked (the configuration the locking check rejects). -/
def lockedAbove (env : WorkerEnv) (rows : List Version) (target i : Int) : Prop :=
  target < i ∧ (∃ p ∈ env.plans, p.defn.id = i) ∧ (∃ v ∈ rows, v.id = i ∧ v.locked = true)

/-- The number of migration steps Goto still has to perform. -/
def gotoMeasure (env : WorkerEnv) (target : Int) (rows : List Version) : Nat :=
  countDownGo target (getVersionSummaryAllowFailed env rows).applied +
  countUpGo target (getVersionSummaryAllowFailed env rows).unapplied

/-- Bool predicate: the plan id is recorded among the rows. -/
def appliedIn (rows : List Version) (p : migrationPlan) : Bool :=
  (rows.map (·.id)).contains p.defn.id

/-- The locked flag consulted by the locking check for a version id. -/
def lookupLocked (vs : versionSummary) (i : Int) : Bool :=
  ((vsLookup vs i).map (·.locked)).getD false

def exEnvC : WorkerEnv :=
  { plans := plansOf [{ id := 10, upSQL := "create table t1;" },
                      { id := 20, upSQL := "create table t2;" },
                      { id := 30, upSQL := "create table t3;" }],
    supportsTxDDL := true, upOk := fun _ => true, downOk := fun _ => true,
    now := 0 }

def exRowsC : List Version :=
  [{ id := 10, appliedAt := some 0 },
   { id := 20, appliedAt := some 0, locked := true },
   { id := 30, appliedAt := some 0, locked := true }]

def exRowsD : List Version :=
  [{ id := 10, appliedAt := some 0 },
   { id := 20, appliedAt := some 0 },
   { id := 30, appliedAt := some 0, locked := true }]

/-- Two versions agreeing on all persisted fields (the summary construction
only rewrites the up/down description strings). -/
def sameCore (w v : Version) : Prop :=
  w.id = v.id ∧ w.failed = v.failed ∧ w.locked = v.locked ∧ w.appliedAt = v.appliedAt

theorem markAbsorbed_cons (seen : List (String × String)) (a : ddlAction)
    (rest : List ddlAction) :
    markAbsorbed seen (a :: rest) =
      (if absorbedBy seen a then none else some a) :: markAbsorbed seen rest := rfl

theorem absorbLater_cons_none (act : ddlAction) (l : List (Option ddlAction)) :
    absorbLater act (none :: l) = none :: absorbLater act l := rfl

theorem absorbLater_cons_some (act next : ddlAction) (l : List (Option ddlAction)) :
    absorbLater act (some next :: l) =
      (if next.verb = .alter ∧ next.objectType = .table ∧
          next.schema = act.schema ∧ next.name = act.name then none
       else if next.verb = .create ∧ next.objectType = .index ∧
          next.schema = act.schema ∧ next.name = act.name then none
       else some next) :: absorbLater act l := rfl

theorem absorbLater_markAbsorbed (act : ddlAction) (seen : List (String × String))
    (l : List ddlAction) :
    absorbLater act (markAbsorbed seen l) =
      markAbsorbed ((act.schema, act.name) :: seen) l := by
  induction l with
  | nil => rfl
  | cons a rest ih =>
    by_cases h1 : absorbedBy seen a
    · have h2 : absorbedBy ((act.schema, act.name) :: seen) a := by
        obtain ⟨hk, hm⟩ := h1
        exact ⟨hk, List.mem_cons_of_mem _ hm⟩
      rw [markAbsorbed_cons, markAbsorbed_cons, if_pos h1, if_pos h2,
        absorbLater_cons_none, ih]
    · rw [markAbsorbed_cons, markAbsorbed_cons, if_neg h1, absorbLater_cons_some, ih]
      congr 1
      by_cases h3 : absorbedBy ((act.schema, act.name) :: seen) a
      · have hm : (a.schema, a.name) = (act.schema, act.name) := by
          rcases List.mem_cons.mp h3.2 with h | h
          · exact h
          · exact absurd ⟨h3.1, h⟩ h1
        have hs : a.schema = act.schema := congrArg Prod.fst hm
        have hn : a.name = act.name := congrArg Prod.snd hm
        rw [if_pos h3]
        rcases h3.1 with ⟨hv, ho⟩ | ⟨hv, ho⟩
        · rw [if_pos ⟨hv, ho, hs, hn⟩]
        · have hka : ¬ (a.verb = ddlVerb.alter ∧ a.objectType = dbObjectType.table ∧
              a.schema = act.schema ∧ a.name = act.name) := by
            rintro ⟨hva, -, -, -⟩
            rw [hv] at hva
            exact absurd hva (by decide)
          rw [if_neg hka, if_pos ⟨hv, ho, hs, hn⟩]
      · have hk1 : ¬ (a.verb = ddlVerb.alter ∧ a.objectType = dbObjectType.table ∧
            a.schema = act.schema ∧ a.name = act.name) := by
          rintro ⟨hv, ho, hs, hn⟩
          exact h3 ⟨Or.inl ⟨hv, ho⟩, by rw [hs, hn]; exact List.mem_cons_self _ _⟩
        have hk2 : ¬ (a.verb = ddlVerb.create ∧ a.objectType = dbObjectType.index ∧
            a.schema = act.schema ∧ a.name = act.name) := by
          rintro ⟨hv, ho, hs, hn⟩
          exact h3 ⟨Or.inr ⟨hv, ho⟩, by rw [hs, hn]; exact List.mem_cons_self _ _⟩
        rw [if_neg h3, if_neg hk1, if_neg hk2]

theorem mctGo_markAbsorbed (l : List ddlAction) (seen : List (String × String))
    (fuel : Nat) (hfuel : l.length ≤ fuel) :
    (mctGo fuel (markAbsorbed seen l)).filterMap id = mergeCreateTableSpec seen l := by
  induction fuel generalizing l seen with
  | zero =>
    have : l = [] := List.length_eq_zero.mp (Nat.le_zero.mp hfuel)
    subst this
    rfl
  | succ fuel ih =>
    cases l with
    | nil => rfl
    | cons a rest =>
      have hrest : rest.length ≤ fuel := by
        simp only [List.length_cons] at hfuel
        omega
      rw [markAbsorbed_cons]
      by_cases h1 : absorbedBy seen a
      · rw [if_pos h1]
        rw [show mctGo (fuel + 1) (none :: markAbsorbed seen rest) =
              none :: mctGo fuel (markAbsorbed seen rest) from rfl]
        rw [show List.filterMap id
              (none :: mctGo fuel (markAbsorbed seen rest)) =
            List.filterMap id (mctGo fuel (markAbsorbed seen rest)) from by simp]
        rw [ih rest seen hrest]
        rw [show mergeCreateTableSpec seen (a :: rest) =
              mergeCreateTableSpec seen rest from by
          rw [mergeCreateTableSpec, if_pos h1]]
      · rw [if_neg h1]
        by_cases h2 : a.verb = ddlVerb.create ∧ a.objectType = dbObjectType.table
        · rw [show mctGo (fuel + 1) (some a :: markAbsorbed seen rest) =
                some a :: mctGo fuel (absorbLater a (markAbsorbed seen rest)) from by
            rw [mctGo, if_pos h2]]
          rw [absorbLater_markAbsorbed]
          rw [show List.filterMap id
                (some a :: mctGo fuel (markAbsorbed ((a.schema, a.name) :: seen) rest)) =
              a :: List.filterMap id (mctGo fuel (markAbsorbed ((a.schema, a.name) :: seen) rest))
            from by simp]
          rw [ih rest ((a.schema, a.name) :: seen) hrest]
          rw [show mergeCreateTableSpec seen (a :: rest) =
                a :: mergeCreateTableSpec ((a.schema, a.name) :: seen) rest from by
            rw [mergeCreateTableSpec, if_neg h1, if_pos h2]]
        · rw [show mctGo (fuel + 1) (some a :: markAbsorbed seen rest) =
                some a :: mctGo fuel (markAbsorbed seen rest) from by
            rw [mctGo, if_neg h2]]
          rw [show List.filterMap id
                (some a :: mctGo fuel (markAbsorbed seen rest)) =
              a :: List.filterMap id (mctGo fuel (markAbsorbed seen rest)) from by simp]
          rw [ih rest seen hrest]
          rw [show mergeCreateTableSpec seen (a :: rest) =
                a :: mergeCreateTableSpec seen rest from by
            rw [mergeCreateTableSpec, if_neg h1, if_neg h2]]

/-- C7: in the merged action list, every alter-table action and every
create-index action that appears later in the list than a create-table action
with the same schema and name is removed entirely, while the create-table
action itself and all unrelated actions are kept in their original relative
order (the claim-side walk `mergeCreateTableSpec` makes this precise). -/
theorem c7_create_table_absorption (l : List ddlAction) :
    mergeCreateTable l = mergeCreateTableSpec [] l := by
  have hmark : markAbsorbed [] l = l.map some := by
    simp [markAbsorbed, absorbedBy]
  rw [mergeCreateTable, ← hmark, mctGo_markAbsorbed l [] l.length (le_refl _)]

/-! ## C10: totality of the statement helpers -/

/-- C10: the helpers behave as claimed — `statement.get` on the empty
statement returns the empty string, `statement.match` against a longer probe
is false, and `statement.remove` of an unmatched prefix returns the statement
unchanged (their arbitrary-input totality is immediate from the same
definitions) — but the consequence the claim draws for `newDDLAction` fails:
the up-SQL `"create index"` tokenizes to the single statement
`["create", "index"]`, on which the index branch, reached exactly because an
empty statement does not match `on`, performs the unguarded slice expression
`stmt[1:]` on an empty statement, an out-of-range access that panics at run
time instead of returning a result; `newDDLActions` propagates the panic. -/
theorem c10_extraction_panic :
    stmtGet ([] : List String) 0 = "" ∧
    stmtMatch ([] : List String) ["on"] = false ∧
    stmtRemove ([] : List String) ["on"] = [] ∧
    newStatements "create index" = [["create", "index"]] ∧
    newDDLAction ["create", "index"] = Except.error panicSliceBounds ∧
    newDDLActions "create index" = Except.error panicSliceBounds := by
  refine ⟨rfl, rfl, rfl, by decide, rfl, rfl⟩

/-! ## C6: all-or-nothing action extraction -/

/-- C6: a batch containing an ordinary unsupported statement is rejected as a
whole — `"create table t1; something not supported;"` yields no actions at
all, never a partial list — but the rejection is not what happens on every
unmatched statement: the batch `"create index"` (whose only statement matches
no action, having no name token) makes the extractor panic with an
out-of-range slice access instead of returning no actions. -/
theorem c6_reject_whole_batch_trace :
    newDDLActions "create table t1; something not supported;" = Except.ok [] ∧
    newStatements "create index" = [["create", "index"]] ∧
    newDDLAction ["create", "index"] = Except.error panicSliceBounds ∧
    newDDLActions "create index" = Except.error panicSliceBounds := by
  refine ⟨rfl, by decide, rfl, rfl⟩

/-! ## Dispatch lemmas for the down-SQL derivation -/

theorem newPlan_ok (defn : Definition) (prevs : List migrationPlan)
    (acts : List ddlAction) (hacts : newDDLActions defn.upSQL = Except.ok acts) :
    newPlan defn prevs = Except.ok
      { id := defn.id, defn := defn,
        errs := defn.errs ++ (deriveDownSQL defn acts prevs).2 ++
          checkErrors defn (deriveDownSQL defn acts prevs).1,
        downSQL := (deriveDownSQL defn acts prevs).1, actions := acts } := by
  unfold newPlan
  rw [hacts]

theorem deriveDownSQL_drop (defn : Definition) (actions : List ddlAction)
    (prevs : List migrationPlan)
    (hdown : defn.downMethods = [])
    (hne : actions ≠ [])
    (hall : ∀ a ∈ actions, a.verb = .create ∧ a.objectType.ShouldRestore = false) :
    deriveDownSQL defn actions prevs = deriveDownSQLDrop defn.id actions := by
  have h0 : restorableCount actions = 0 := by
    rw [restorableCount, List.countP_eq_zero]
    intro a ha
    obtain ⟨hv, hr⟩ := hall a ha
    simp [isRestorableAct, hv, hr]
  have h1 : 0 < droppableCount actions := by
    rw [droppableCount, List.countP_pos_iff]
    obtain ⟨a, ha⟩ := List.exists_mem_of_ne_nil actions hne
    obtain ⟨hv, hr⟩ := hall a ha
    exact ⟨a, ha, by simp [isDroppableAct, hv, hr]⟩
  have h2 : manualDownErrors defn.id actions = [] := by
    rw [manualDownErrors, List.map_eq_nil_iff, List.filter_eq_nil_iff]
    intro a ha
    obtain ⟨hv, -⟩ := hall a ha
    simp [hv]
  simp [deriveDownSQL, h0, h1, h2, hdown, hne]

theorem deriveDownSQL_restore (defn : Definition) (act : ddlAction)
    (prevs : List migrationPlan)
    (hdown : defn.downMethods = [])
    (hverb : act.verb = .create)
    (hres : act.objectType.ShouldRestore = true) :
    deriveDownSQL defn [act] prevs = (deriveDownSQLRestore [act] prevs, []) := by
  have h0 : restorableCount [act] = 1 := by
    simp [restorableCount, List.countP_cons, isRestorableAct, hverb, hres]
  have h1 : droppableCount [act] = 0 := by
    simp [droppableCount, List.countP_cons, isDroppableAct, hres]
  have h2 : manualDownErrors defn.id [act] = [] := by
    simp [manualDownErrors, hverb]
  simp [deriveDownSQL, h0, h1, h2, hdown]

/-! ## C3: derivation of restore-path down migrations -/

/-- C3: for a plan whose extracted action list is exactly one restorable
create action and whose definition has no explicit down executor, derivation
walks the previous-plan chain strictly backward to the most recent plan whose
actions contain a create for the same object type, schema and name; if found,
the derived down SQL is the drop statement (emitted only when that prior
create is not itself marked preceded-by-drop) followed by that prior version
entire up-SQL text, and otherwise it is the single drop statement. -/
theorem c3_restore_derivation (defn : Definition) (prevs : List migrationPlan)
    (act : ddlAction)
    (hact : newDDLActions defn.upSQL = Except.ok [act])
    (hverb : act.verb = .create)
    (hres : act.objectType.ShouldRestore = true)
    (hdown : defn.downMethods = []) :
    ∃ p, newPlan defn prevs = Except.ok p ∧
      p.downSQL =
        match findPrevPlan act prevs with
        | some (q, prevAct) =>
          (if prevAct.dropBefore then "" else dropStmt act) ++ q.defn.upSQL
        | none => dropStmt act := by
  refine ⟨_, newPlan_ok defn prevs [act] hact, ?_⟩
  show (deriveDownSQL defn [act] prevs).1 = _
  rw [deriveDownSQL_restore defn act prevs hdown hverb hres]
  rw [show deriveDownSQLRestore [act] prevs =
    match findPrevPlan act prevs with
    | some (q, prevAct) =>
      (if prevAct.dropBefore then "" else dropStmt act) ++ q.defn.upSQL
    | none => dropStmt act
    from rfl]

/-- Witness for C3, at the second literal derivation example of the spec:
version 1 creates view v1, version 2 drops and recreates it; the derived down
SQL of version 2 drops the view and replays the version-1 up SQL. -/
theorem c3_restore_derivation_witness :
    (newDDLActions "drop view v1; create view v1 as select * from t2;" =
      Except.ok
        [{ verb := .create, dropBefore := true, objectType := .view, name := "v1" }]) ∧
    ({ verb := .create, dropBefore := true, objectType := .view,
       name := "v1" } : ddlAction).verb = .create ∧
    ({ verb := .create, dropBefore := true, objectType := .view,
       name := "v1" } : ddlAction).objectType.ShouldRestore = true ∧
    Definition.downMethods
      { id := 2, upSQL := "drop view v1; create view v1 as select * from t2;" } = [] ∧
    ∃ p, newPlan { id := 2, upSQL := "drop view v1; create view v1 as select * from t2;" }
        (plansOf [{ id := 1, upSQL := "create view v1 as select * from t1;" }]) =
        Except.ok p ∧
      p.downSQL = "drop view v1;\ncreate view v1 as select * from t1;" := by
  refine ⟨rfl, by decide, by decide, by decide, ?_⟩
  obtain ⟨p, hp, hd⟩ := c3_restore_derivation
    { id := 2, upSQL := "drop view v1; create view v1 as select * from t2;" }
    (plansOf [{ id := 1, upSQL := "create view v1 as select * from t1;" }])
    { verb := .create, dropBefore := true, objectType := .view, name := "v1" }
    rfl (by decide) (by decide) (by decide)
  refine ⟨p, hp, ?_⟩
  rw [hd]
  decide

/-! ## C4: derivation of drop-path down migrations -/

/-- C4: for a plan whose extracted actions are all creates of non-restorable
objects and whose definition has no explicit down executor, the derived down
SQL is one drop statement per action in reverse order of the action list, and
each index or trigger action additionally records a validation error
requiring a manual down migration even though its drop statement is still
generated. -/
theorem c4_drop_derivation (defn : Definition) (prevs : List migrationPlan)
    (acts : List ddlAction)
    (hacts : newDDLActions defn.upSQL = Except.ok acts)
    (hdown : defn.downMethods = [])
    (hne : acts ≠ [])
    (hall : ∀ a ∈ acts, a.verb = .create ∧ a.objectType.ShouldRestore = false) :
    ∃ p, newPlan defn prevs = Except.ok p ∧
      p.downSQL = String.join ((acts.reverse).map dropStmt) ∧
      ∀ a ∈ acts,
        (a.objectType = .index ∨ a.objectType = .trigger) →
          indexTriggerErrors defn.id a ≠ [] ∧
          ∀ e ∈ indexTriggerErrors defn.id a, e ∈ p.errs := by
  have h := deriveDownSQL_drop defn acts prevs hdown hne hall
  refine ⟨_, newPlan_ok defn prevs acts hacts, ?_, ?_⟩
  · show (deriveDownSQL defn acts prevs).1 = _
    rw [h]
    rfl
  · intro a ha hio
    constructor
    · rcases hio with hio | hio <;> simp [indexTriggerErrors, hio]
    · intro e he
      show e ∈ defn.errs ++ (deriveDownSQL defn acts prevs).2 ++
        checkErrors defn (deriveDownSQL defn acts prevs).1
      rw [h]
      have hmem : e ∈ (deriveDownSQLDrop defn.id acts).2 := by
        rw [show (deriveDownSQLDrop defn.id acts).2 =
          ((acts.reverse).map (indexTriggerErrors defn.id)).flatten from rfl]
        rw [List.mem_flatten]
        exact ⟨indexTriggerErrors defn.id a,
          List.mem_map_of_mem _ (List.mem_reverse.mpr ha), he⟩
      exact List.mem_append.mpr (Or.inl (List.mem_append.mpr (Or.inr hmem)))

/-- Witness for C4, at an index batch exercising both the reverse-order drop
statement and the validation-error branch. -/
theorem c4_drop_derivation_witness :
    (newDDLActions "create index i1 on t1(id);" =
      Except.ok [{ verb := .create, objectType := .index, name := "t1",
                   index := "i1" }]) ∧
    (Definition.downMethods { id := 2, upSQL := "create index i1 on t1(id);" } = []) ∧
    (([{ verb := .create, objectType := .index, name := "t1",
         index := "i1" }] : List ddlAction) ≠ []) ∧
    (∀ a ∈ ([{ verb := .create, objectType := .index, name := "t1",
               index := "i1" }] : List ddlAction),
      a.verb = .create ∧ a.objectType.ShouldRestore = false) ∧
    ∃ p, newPlan { id := 2, upSQL := "create index i1 on t1(id);" } [] =
        Except.ok p ∧
      p.downSQL = String.join
        ((([{ verb := .create, objectType := .index, name := "t1",
              index := "i1" }] : List ddlAction).reverse).map dropStmt) ∧
      ∀ a ∈ ([{ verb := .create, objectType := .index, name := "t1",
                index := "i1" }] : List ddlAction),
        (a.objectType = .index ∨ a.objectType = .trigger) →
          indexTriggerErrors 2 a ≠ [] ∧
          ∀ e ∈ indexTriggerErrors 2 a, e ∈ p.errs := by
  refine ⟨rfl, by decide, by decide, by decide, ?_⟩
  exact c4_drop_derivation { id := 2, upSQL := "create index i1 on t1(id);" } []
    [{ verb := .create, objectType := .index, name := "t1", index := "i1" }]
    rfl (by decide) (by decide) (by decide)

/-! ## C5: the isolation rule for restorable objects -/

/-- Counterexample for C5 as stated: at this concrete plan (the mixed
create-table plus create-view version of the unit tests) the recorded
validation error description is "create view v1 in its own migration", not
"create view v1 must be in its own migration" as the claim words it. -/
theorem c5_isolation_message_counterexample :
    Except.map migrationPlan.errs
      (newPlan
        { id := 1,
          upSQL := "create table t1(id int);create view v1 as select * from t1;",
          downSQL := "drop view v1; drop table t1;" } []) =
      Except.ok [⟨1, "create view v1 in its own migration"⟩] ∧
    Except.map
      (fun p => decide
        (MError.mk 1 "create view v1 must be in its own migration" ∈ p.errs))
      (newPlan
        { id := 1,
          upSQL := "create table t1(id int);create view v1 as select * from t1;",
          downSQL := "drop view v1; drop table t1;" } []) =
      Except.ok false := by
  constructor
  · rfl
  · rfl

/-- C5 (amended): if the extracted action list has more than one restorable
action, or mixes a restorable action with a droppable one, derivation is
refused (no down SQL is produced) and one validation error with description
"<verb> <type> <qualified-name> in its own migration" is recorded for each
action of restorable object type (the amendment: the source message has no
"must be"). -/
theorem c5_isolation_refusal (defn : Definition) (prevs : List migrationPlan)
    (acts : List ddlAction)
    (hacts : newDDLActions defn.upSQL = Except.ok acts)
    (h : restorableCount acts > 1 ∨
      (restorableCount acts > 0 ∧ droppableCount acts > 0)) :
    ∃ p, newPlan defn prevs = Except.ok p ∧
      p.downSQL = "" ∧
      p.errs = defn.errs ++ isolationErrors defn.id acts ++
        (if defn.downMethods.length = 0 then
          [⟨defn.id, "call one of [Down DownDB DownTx]"⟩] else []) := by
  have hder : deriveDownSQL defn acts prevs =
      ("", isolationErrors defn.id acts) := by
    rw [show deriveDownSQL defn acts prevs =
      if restorableCount acts > 1 ∨
          (restorableCount acts > 0 ∧ droppableCount acts > 0) then
        ("", isolationErrors defn.id acts)
      else if defn.downMethods.length > 0 then ("", [])
      else if acts.length = 0 then ("", [])
      else
        let merrs := manualDownErrors defn.id acts
        if merrs.length > 0 then ("", merrs)
        else if restorableCount acts > 0 then
          (deriveDownSQLRestore acts prevs, [])
        else if droppableCount acts > 0 then
          deriveDownSQLDrop defn.id acts
        else ("", []) from rfl]
    rw [if_pos h]
  refine ⟨_, newPlan_ok defn prevs acts hacts, ?_, ?_⟩
  · show (deriveDownSQL defn acts prevs).1 = ""
    rw [hder]
  · show defn.errs ++ (deriveDownSQL defn acts prevs).2 ++
      checkErrors defn (deriveDownSQL defn acts prevs).1 = _
    rw [hder]
    simp [checkErrors]

/-- Witness for C5 (amended), at the mixed create-table plus create-view
plan. -/
theorem c5_isolation_refusal_witness :
    (newDDLActions
      (Definition.upSQL
        { id := 1,
          upSQL := "create table t1(id int);create view v1 as select * from t1;",
          downSQL := "drop view v1; drop table t1;" }) =
      Except.ok [{ verb := .create, objectType := .table, name := "t1" },
                 { verb := .create, objectType := .view, name := "v1" }]) ∧
    (restorableCount
        [{ verb := .create, objectType := .table, name := "t1" },
         { verb := .create, objectType := .view, name := "v1" }] > 1 ∨
     (restorableCount
        [{ verb := .create, objectType := .table, name := "t1" },
         { verb := .create, objectType := .view, name := "v1" }] > 0 ∧
      droppableCount
        [{ verb := .create, objectType := .table, name := "t1" },
         { verb := .create, objectType := .view, name := "v1" }] > 0)) ∧
    ∃ p, newPlan
        { id := 1,
          upSQL := "create table t1(id int);create view v1 as select * from t1;",
          downSQL := "drop view v1; drop table t1;" } [] = Except.ok p ∧
      p.downSQL = "" ∧
      p.errs =
        Definition.errs
          { id := 1,
            upSQL := "create table t1(id int);create view v1 as select * from t1;",
            downSQL := "drop view v1; drop table t1;" } ++
        isolationErrors 1
          [{ verb := .create, objectType := .table, name := "t1" },
           { verb := .create, objectType := .view, name := "v1" }] ++
        (if (Definition.downMethods
            { id := 1,
              upSQL := "create table t1(id int);create view v1 as select * from t1;",
              downSQL := "drop view v1; drop table t1;" }).length = 0 then
          [⟨1, "call one of [Down DownDB DownTx]"⟩] else []) :=
  ⟨rfl, by decide,
   c5_isolation_refusal
     { id := 1,
       upSQL := "create table t1(id int);create view v1 as select * from t1;",
       downSQL := "drop view v1; drop table t1;" } []
     [{ verb := .create, objectType := .table, name := "t1" },
      { verb := .create, objectType := .view, name := "v1" }]
     rfl (by decide)⟩

/-! ## C1 and C2: concrete evaluations of the worker escalation and Force -/

/-- C1 (code bug in the down path): the traces of the two escalation
protocols at a concrete version.  The up path inserts a Version row with
failed set to true before executing the migration and clears the flag
afterwards, as claimed; the down path issues `SetVersionFailed` with false
before executing (under the source comment "mark version as failed"), so the
durable in-flight marker is never set on the down path, contradicting the
claim; on success the row is deleted. -/
theorem c1_noTx_escalation_trace :
    (upOneNoTx exEnvA [] 1).calls =
      [.insertVersion { id := 1, appliedAt := some 0, failed := true },
       .execUp 1, .setVersionFailed 1 false] ∧
    (downOneNoTx exEnvA [{ id := 1, appliedAt := some 0 }] 1).calls =
      [.setVersionFailed 1 false, .execDown 1, .deleteVersion 1] ∧
    (downOneNoTx exEnvA [{ id := 1, appliedAt := some 0 }] 1).calls.head? ≠
      some (.setVersionFailed 1 true) := by
  refine ⟨by decide, by decide, by decide⟩

/-- C2 (code bug): Force(10) on a database with versions 10 and 20 applied.
The claim requires version 20 (the only applied version above the target) to
be deleted and the failed flag of version 10 to be cleared, leaving exactly
version 10.  The source passes the target id to the driver in the deletion
loop, so the call deletes version 10 itself and leaves version 20 in place:
the surviving row ids are [20], not [10]. -/
theorem c2_force_bookkeeping :
    (Worker.Force exEnvB exRowsB 10).err = none ∧
    (Worker.Force exEnvB exRowsB 10).calls =
      [.setVersionFailed 10 false, .deleteVersion 10] ∧
    (Worker.Force exEnvB exRowsB 10).rows.map (·.id) = [20] ∧
    (Worker.Force exEnvB exRowsB 10).rows.map (·.id) ≠ [10] := by
  refine ⟨by decide, by decide, by decide, by decide⟩

/-! ## Structural lemmas about version summaries, and C8 -/

theorem sameCore_refl (v : Version) : sameCore v v := ⟨rfl, rfl, rfl, rfl⟩

theorem sameCore_trans {a b c : Version} (h1 : sameCore a b) (h2 : sameCore b c) :
    sameCore a c :=
  ⟨h1.1.trans h2.1, h1.2.1.trans h2.2.1, h1.2.2.1.trans h2.2.2.1, h1.2.2.2.trans h2.2.2.2⟩

theorem setUpDown_core (p : migrationPlan) (v : Version) : sameCore (setUpDown p v) v := by
  unfold sameCore setUpDown
  split_ifs <;> simp

theorem applyPlanMap_core (p : migrationPlan) (v : Version) :
    sameCore (if v.id = p.defn.id then setUpDown p v else v) v := by
  split
  · exact setUpDown_core p v
  · exact sameCore_refl v

theorem summaryFold_applied (ids : List Int) (ps : List migrationPlan) :
    ∀ vs : versionSummary, (summaryFold ids vs ps).applied =
      vs.applied ++ ps.filter (fun p => ids.contains p.defn.id) := by
  induction ps with
  | nil => intro vs; simp [summaryFold]
  | cons p rest ih =>
    intro vs
    by_cases h : p.defn.id ∈ ids
    · simp [summaryFold, h, ih, List.filter_cons]
    · simp [summaryFold, h, ih, List.filter_cons]

theorem summaryFold_unapplied (ids : List Int) (ps : List migrationPlan) :
    ∀ vs : versionSummary, (summaryFold ids vs ps).unapplied =
      vs.unapplied ++ ps.filter (fun p => ! ids.contains p.defn.id) := by
  induction ps with
  | nil => intro vs; simp [summaryFold]
  | cons p rest ih =>
    intro vs
    by_cases h : p.defn.id ∈ ids
    · simp [summaryFold, h, ih, List.filter_cons]
    · simp [summaryFold, h, ih, List.filter_cons]

theorem summaryFold_versions_sub (ids : List Int) (ps : List migrationPlan) :
    ∀ vs : versionSummary, ∀ w ∈ (summaryFold ids vs ps).versions,
      (∃ v ∈ vs.versions, sameCore w v) ∨
      (w.appliedAt = none ∧ w.failed = false ∧ w.locked = false ∧
        ids.contains w.id = false) := by
  induction ps with
  | nil => intro vs w hw; exact Or.inl ⟨w, hw, sameCore_refl w⟩
  | cons p rest ih =>
    intro vs w hw
    simp only [summaryFold] at hw
    by_cases h : ids.contains p.defn.id = true
    · rw [if_pos h] at hw
      rcases ih _ w hw with ⟨v1, hv1, hc⟩ | hsynth
      · simp only [List.mem_map] at hv1
        obtain ⟨v, hv, rfl⟩ := hv1
        exact Or.inl ⟨v, hv, sameCore_trans hc (applyPlanMap_core p v)⟩
      · exact Or.inr hsynth
    · rw [if_neg h] at hw
      rcases ih _ w hw with ⟨v1, hv1, hc⟩ | hsynth
      · rcases List.mem_append.mp hv1 with hv | hv
        · exact Or.inl ⟨v1, hv, hc⟩
        · have hv1eq : v1 = setUpDown p { id := p.defn.id } := by
            simpa using hv
          subst hv1eq
          have hbase := setUpDown_core p { id := p.defn.id }
          refine Or.inr ⟨?_, ?_, ?_, ?_⟩
          · exact hc.2.2.2.trans hbase.2.2.2
          · exact hc.2.1.trans hbase.2.1
          · exact hc.2.2.1.trans hbase.2.2.1
          · have hwid : w.id = p.defn.id := hc.1.trans hbase.1
            rw [hwid]
            exact Bool.not_eq_true _ ▸ (by simpa using h)
      · exact Or.inr hsynth

theorem summaryFold_versions_exists (ids : List Int) (ps : List migrationPlan) :
    ∀ vs : versionSummary, ∀ v : Version, (∃ w ∈ vs.versions, sameCore w v) →
      ∃ w ∈ (summaryFold ids vs ps).versions, sameCore w v := by
  induction ps with
  | nil => intro vs v h; simpa [summaryFold] using h
  | cons p rest ih =>
    intro vs v ⟨w, hw, hc⟩
    simp only [summaryFold]
    by_cases h : ids.contains p.defn.id = true
    · rw [if_pos h]
      refine ih _ v ⟨(if w.id = p.defn.id then setUpDown p w else w), ?_, ?_⟩
      · exact List.mem_map_of_mem _ hw
      · exact sameCore_trans (applyPlanMap_core p w) hc
    · rw [if_neg h]
      exact ih _ v ⟨w, List.mem_append.mpr (Or.inl hw), hc⟩

theorem summaryFold_covers (ids : List Int) (ps : List migrationPlan) :
    ∀ vs : versionSummary, ∀ i : Int,
      (∀ j, ids.contains j = true → ∃ w ∈ vs.versions, w.id = j) →
      ((∃ w ∈ vs.versions, w.id = i) ∨ (∃ p ∈ ps, p.defn.id = i)) →
      ∃ w ∈ (summaryFold ids vs ps).versions, w.id = i := by
  induction ps with
  | nil =>
    intro vs i hinv h
    rcases h with h | ⟨p, hp, -⟩
    · simpa [summaryFold] using h
    · cases hp
  | cons p rest ih =>
    intro vs i hinv h
    simp only [summaryFold]
    by_cases hap : ids.contains p.defn.id = true
    · rw [if_pos hap]
      have hinv2 : ∀ j, ids.contains j = true →
          ∃ w ∈ (vs.versions.map fun v =>
            if v.id = p.defn.id then setUpDown p v else v), w.id = j := by
        intro j hj
        obtain ⟨w, hw, hid⟩ := hinv j hj
        refine ⟨(if w.id = p.defn.id then setUpDown p w else w),
          List.mem_map_of_mem _ hw, ?_⟩
        exact (applyPlanMap_core p w).1.trans hid
      rcases h with ⟨w, hw, hid⟩ | ⟨q, hq, hid⟩
      · exact ih _ i (by simpa using hinv2) (Or.inl ((by
          exact ⟨(if w.id = p.defn.id then setUpDown p w else w),
            List.mem_map_of_mem _ hw, (applyPlanMap_core p w).1.trans hid⟩)))
      · rcases List.mem_cons.mp hq with rfl | hq2
        · obtain ⟨w, hw, hid2⟩ := hinv q.defn.id hap
          exact ih _ i (by simpa using hinv2) (Or.inl
            ⟨(if w.id = q.defn.id then setUpDown q w else w),
              List.mem_map_of_mem _ hw, (applyPlanMap_core q w).1.trans (hid2.trans hid)⟩)
        · exact ih _ i (by simpa using hinv2) (Or.inr ⟨q, hq2, hid⟩)
    · rw [if_neg hap]
      have hinv2 : ∀ j, ids.contains j = true →
          ∃ w ∈ (vs.versions ++ [setUpDown p { id := p.defn.id }]), w.id = j := by
        intro j hj
        obtain ⟨w, hw, hid⟩ := hinv j hj
        exact ⟨w, List.mem_append.mpr (Or.inl hw), hid⟩
      rcases h with ⟨w, hw, hid⟩ | ⟨q, hq, hid⟩
      · exact ih _ i (by simpa using hinv2)
          (Or.inl ⟨w, List.mem_append.mpr (Or.inl hw), hid⟩)
      · rcases List.mem_cons.mp hq with rfl | hq2
        · refine ih _ i (by simpa using hinv2) (Or.inl
            ⟨setUpDown q { id := q.defn.id },
              List.mem_append.mpr (Or.inr (by simp)), ?_⟩)
          exact (setUpDown_core q { id := q.defn.id }).1.trans hid
        · exact ih _ i (by simpa using hinv2) (Or.inr ⟨q, hq2, hid⟩)



theorem mem_sortVersionsAsc {l : List Version} {v : Version} :
    v ∈ sortVersionsAsc l ↔ v ∈ l :=
  (List.perm_insertionSort _ l).mem_iff

/-- The summary construction, exposed for the proofs: the base summary and
the three sorted fields. -/
theorem gvsaf_fields (env : WorkerEnv) (rows : List Version) :
    ∃ vs0 : versionSummary, vs0.versions = sortVersionsAsc rows ∧
      vs0.applied = [] ∧ vs0.unapplied = [] ∧
      (getVersionSummaryAllowFailed env rows).versions =
        sortVersionsAsc (summaryFold (rows.map (·.id)) vs0 env.plans).versions ∧
      (getVersionSummaryAllowFailed env rows).applied =
        sortPlansDesc (summaryFold (rows.map (·.id)) vs0 env.plans).applied ∧
      (getVersionSummaryAllowFailed env rows).unapplied =
        sortPlansAsc (summaryFold (rows.map (·.id)) vs0 env.plans).unapplied :=
  ⟨{ id := (sortVersionsAsc rows).foldl (fun m v => if v.id > m then v.id else m) 0,
     versions := sortVersionsAsc rows },
   rfl, rfl, rfl, rfl, rfl, rfl⟩

/-- Every version of the summary matches a persisted row on all persisted
fields, or is a synthesised unapplied version. -/
theorem gvsaf_versions_sub (env : WorkerEnv) (rows : List Version) :
    ∀ w ∈ (getVersionSummaryAllowFailed env rows).versions,
      (∃ v ∈ rows, sameCore w v) ∨
      (w.appliedAt = none ∧ w.failed = false ∧ w.locked = false ∧
        (rows.map (·.id)).contains w.id = false) := by
  obtain ⟨vs0, hv0, -, -, hver, -, -⟩ := gvsaf_fields env rows
  intro w hw
  rw [hver, mem_sortVersionsAsc] at hw
  rcases summaryFold_versions_sub _ _ vs0 w hw with ⟨v, hv, hc⟩ | hsynth
  · rw [hv0, mem_sortVersionsAsc] at hv
    exact Or.inl ⟨v, hv, hc⟩
  · exact Or.inr hsynth

/-- Every persisted row appears in the summary with the same persisted
fields. -/
theorem gvsaf_versions_exists (env : WorkerEnv) (rows : List Version) :
    ∀ v ∈ rows, ∃ w ∈ (getVersionSummaryAllowFailed env rows).versions, sameCore w v := by
  obtain ⟨vs0, hv0, -, -, hver, -, -⟩ := gvsaf_fields env rows
  intro v hv
  obtain ⟨w, hw, hc⟩ := summaryFold_versions_exists (rows.map (·.id)) env.plans vs0 v
    ⟨v, by rw [hv0, mem_sortVersionsAsc]; exact hv, sameCore_refl v⟩
  exact ⟨w, by rw [hver, mem_sortVersionsAsc]; exact hw, hc⟩

/-- Every id defined by a plan (and every persisted id) has a version in the
summary. -/
theorem gvsaf_covers (env : WorkerEnv) (rows : List Version) (i : Int)
    (h : (∃ v ∈ rows, v.id = i) ∨ (∃ p ∈ env.plans, p.defn.id = i)) :
    ∃ w ∈ (getVersionSummaryAllowFailed env rows).versions, w.id = i := by
  obtain ⟨vs0, hv0, -, -, hver, -, -⟩ := gvsaf_fields env rows
  have hinv : ∀ j, (rows.map (·.id)).contains j = true →
      ∃ w ∈ vs0.versions, w.id = j := by
    intro j hj
    have hj2 := List.mem_of_elem_eq_true hj
    rw [List.mem_map] at hj2
    obtain ⟨v, hv, hid⟩ := hj2
    exact ⟨v, by rw [hv0, mem_sortVersionsAsc]; exact hv, hid⟩
  have h2 : (∃ w ∈ vs0.versions, w.id = i) ∨ ∃ p ∈ env.plans, p.defn.id = i := by
    rcases h with ⟨v, hv, hid⟩ | h
    · exact Or.inl ⟨v, by rw [hv0, mem_sortVersionsAsc]; exact hv, hid⟩
    · exact Or.inr h
  obtain ⟨w, hw, hid⟩ := summaryFold_covers (rows.map (·.id)) env.plans vs0 i hinv h2
  exact ⟨w, by rw [hver, mem_sortVersionsAsc]; exact hw, hid⟩

/-- With a failed row present, the summary check fails with the
previously-failed error of a failed row id. -/
theorem getVersionSummary_failed (env : WorkerEnv) (rows : List Version)
    (hfail : ∃ v ∈ rows, v.failed = true) :
    ∃ i, (∃ v ∈ rows, v.failed = true ∧ v.id = i) ∧
      getVersionSummary env rows = .error (toString i ++ ": previously failed") := by
  obtain ⟨v, hv, hvf⟩ := hfail
  obtain ⟨w, hw, hc⟩ := gvsaf_versions_exists env rows v hv
  have hsome : ((getVersionSummaryAllowFailed env rows).versions.find?
      (fun v => v.failed)).isSome := by
    rw [List.find?_isSome]
    exact ⟨w, hw, by rw [hc.2.1, hvf]⟩
  obtain ⟨w0, hw0⟩ := Option.isSome_iff_exists.mp hsome
  have hw0f : w0.failed = true := List.find?_some hw0
  have hw0mem : w0 ∈ (getVersionSummaryAllowFailed env rows).versions :=
    List.mem_of_find?_eq_some hw0
  rcases gvsaf_versions_sub env rows w0 hw0mem with ⟨v0, hv0, hc0⟩ | ⟨-, hf, -, -⟩
  · refine ⟨w0.id, ⟨v0, hv0, by rw [← hc0.2.1, hw0f], hc0.1.symm⟩, ?_⟩
    rw [getVersionSummary, firstFailed, hw0]
  · rw [hf] at hw0f
    cases hw0f



theorem upOne_of_error (env : WorkerEnv) (rows : List Version) (e : String)
    (h : getVersionSummary env rows = .error e) :
    upOne env rows = ⟨rows, [], false, some e⟩ := by
  simp [upOne, h]

theorem downOne_of_error (env : WorkerEnv) (rows : List Version) (e : String)
    (h : getVersionSummary env rows = .error e) :
    downOne env rows = ⟨rows, [], false, some e⟩ := by
  simp [downOne, h]

theorem gotoOne_of_error (env : WorkerEnv) (rows : List Version) (id : Int) (e : String)
    (h : getVersionSummary env rows = .error e) :
    gotoOne env rows id = ⟨rows, [], false, some e⟩ := by
  simp [gotoOne, h]

theorem checkVersion_defined (env : WorkerEnv) (vid : Int)
    (h : vid = 0 ∨ ∃ p ∈ env.plans, p.defn.id = vid) :
    checkVersion env vid = none := by
  rw [checkVersion, if_pos]
  rcases h with h | ⟨p, hp, hid⟩
  · exact Or.inl h
  · exact Or.inr (List.any_eq_true.mpr ⟨p, hp, decide_eq_true hid⟩)

/-- C8: whenever any persisted version row is failed, Up, Down, Goto and
Versions all return the previously-failed error naming a failed row and
perform no migration step (no state change, no database operations), while
Version(id) for a defined id still returns the full version record. -/
theorem c8_failed_blocks_operations (env : WorkerEnv) (rows : List Version)
    (fuel : Nat) (vid : Int)
    (hfuel : 0 < fuel)
    (hfail : ∃ v ∈ rows, v.failed = true)
    (hdef : ∃ p ∈ env.plans, p.defn.id = vid) :
    ∃ i, (∃ v ∈ rows, v.failed = true ∧ v.id = i) ∧
      Worker.Up env fuel rows =
        ⟨rows, [], some (toString i ++ ": previously failed")⟩ ∧
      Worker.Down env fuel rows =
        ⟨rows, [], some (toString i ++ ": previously failed")⟩ ∧
      Worker.Goto env fuel rows vid =
        ⟨rows, [], some (toString i ++ ": previously failed")⟩ ∧
      Worker.Versions env rows =
        .error (toString i ++ ": previously failed") ∧
      ∃ w, Worker.Version env rows vid = .ok w ∧ w.id = vid := by
  obtain ⟨i, hrow, herr⟩ := getVersionSummary_failed env rows hfail
  obtain ⟨n, rfl⟩ : ∃ n, fuel = n + 1 := ⟨fuel - 1, by omega⟩
  refine ⟨i, hrow, ?_, ?_, ?_, ?_, ?_⟩
  · rw [Worker.Up, upLoop, upOne_of_error env rows _ herr]
  · rw [Worker.Down, downLoop, downOne_of_error env rows _ herr]
  · rw [Worker.Goto, checkVersion_defined env vid (Or.inr hdef), gotoLoop,
      gotoOne_of_error env rows vid _ herr]
  · rw [Worker.Versions, herr]
  · obtain ⟨w, hw, hid⟩ := gvsaf_covers env rows vid (Or.inr hdef)
    have hsome : ((getVersionSummaryAllowFailed env rows).versions.find?
        (fun v => decide (v.id = vid))).isSome := by
      rw [List.find?_isSome]
      exact ⟨w, hw, decide_eq_true hid⟩
    obtain ⟨w0, hw0⟩ := Option.isSome_iff_exists.mp hsome
    have hid0 : w0.id = vid := by
      have hp := List.find?_some hw0
      simpa using hp
    refine ⟨w0, ?_, hid0⟩
    rw [Worker.Version, checkVersion_defined env vid (Or.inr hdef)]
    simp [hw0]

/-- Witness for C8: versions 10 (failed) and 20 applied, one unapplied plan
nothing; every operation at fuel 1 and id 10. -/
theorem c8_failed_blocks_operations_witness :
    (0 : Nat) < 1 ∧ (∃ v ∈ exRowsB, v.failed = true) ∧
    (∃ p ∈ exEnvB.plans, p.defn.id = 10) ∧
    ∃ i, (∃ v ∈ exRowsB, v.failed = true ∧ v.id = i) ∧
      Worker.Up exEnvB 1 exRowsB =
        ⟨exRowsB, [], some (toString i ++ ": previously failed")⟩ ∧
      Worker.Down exEnvB 1 exRowsB =
        ⟨exRowsB, [], some (toString i ++ ": previously failed")⟩ ∧
      Worker.Goto exEnvB 1 exRowsB 10 =
        ⟨exRowsB, [], some (toString i ++ ": previously failed")⟩ ∧
      Worker.Versions exEnvB exRowsB =
        .error (toString i ++ ": previously failed") ∧
      ∃ w, Worker.Version exEnvB exRowsB 10 = .ok w ∧ w.id = 10 :=
  ⟨Nat.zero_lt_one, by decide, by decide,
   c8_failed_blocks_operations exEnvB exRowsB 1 10 Nat.zero_lt_one
     (by decide) (by decide)⟩

/-! ## C9: the locking check of Goto -/

theorem mem_sortPlansDesc {l : List migrationPlan} {p : migrationPlan} :
    p ∈ sortPlansDesc l ↔ p ∈ l :=
  (List.perm_insertionSort _ l).mem_iff

theorem mem_sortPlansAsc {l : List migrationPlan} {p : migrationPlan} :
    p ∈ sortPlansAsc l ↔ p ∈ l :=
  (List.perm_insertionSort _ l).mem_iff

theorem sortPlansDesc_sorted (l : List migrationPlan) :
    List.Pairwise (fun a b => b.defn.id ≤ a.defn.id) (sortPlansDesc l) :=
  List.sorted_insertionSort _ l

theorem sortPlansAsc_sorted (l : List migrationPlan) :
    List.Pairwise (fun a b => a.defn.id ≤ b.defn.id) (sortPlansAsc l) :=
  List.sorted_insertionSort _ l

theorem countP_sortPlansDesc (q : migrationPlan → Bool) (l : List migrationPlan) :
    (sortPlansDesc l).countP q = l.countP q :=
  (List.perm_insertionSort _ l).countP_eq q

theorem countP_sortPlansAsc (q : migrationPlan → Bool) (l : List migrationPlan) :
    (sortPlansAsc l).countP q = l.countP q :=
  (List.perm_insertionSort _ l).countP_eq q

theorem countDownGo_eq_countP (t : Int) :
    ∀ l : List migrationPlan, List.Pairwise (fun a b => b.defn.id ≤ a.defn.id) l →
      countDownGo t l = l.countP (fun p => decide (t < p.defn.id)) := by
  intro l
  induction l with
  | nil => intro _; simp [countDownGo]
  | cons p rest ih =>
    intro hs
    have hrest := hs.of_cons
    have hhead : ∀ q ∈ rest, q.defn.id ≤ p.defn.id := by
      intro q hq
      exact List.rel_of_pairwise_cons hs hq
    by_cases h : p.defn.id ≤ t
    · rw [countDownGo, if_pos h]
      have hz : rest.countP (fun p => decide (t < p.defn.id)) = 0 := by
        rw [List.countP_eq_zero]
        intro q hq
        have := hhead q hq
        simp only [decide_eq_true_eq]
        omega
      simp [List.countP_cons, hz, h]
    · rw [countDownGo, if_neg h, ih hrest]
      rw [List.countP_cons]
      have hd : decide (t < p.defn.id) = true := by
        simp only [decide_eq_true_eq]
        omega
      rw [hd]
      simp
      omega

theorem countUpGo_eq_countP (t : Int) :
    ∀ l : List migrationPlan, List.Pairwise (fun a b => a.defn.id ≤ b.defn.id) l →
      countUpGo t l = l.countP (fun p => decide (p.defn.id ≤ t)) := by
  intro l
  induction l with
  | nil => intro _; simp [countUpGo]
  | cons p rest ih =>
    intro hs
    have hrest := hs.of_cons
    have hhead : ∀ q ∈ rest, p.defn.id ≤ q.defn.id := by
      intro q hq
      exact List.rel_of_pairwise_cons hs hq
    by_cases h : p.defn.id > t
    · rw [countUpGo, if_pos h]
      have hz : rest.countP (fun p => decide (p.defn.id ≤ t)) = 0 := by
        rw [List.countP_eq_zero]
        intro q hq
        have := hhead q hq
        simp only [decide_eq_true_eq]
        omega
      have : decide (p.defn.id ≤ t) = false := by
        simp only [decide_eq_false_iff_not]
        omega
      simp [List.countP_cons, hz, this]
    · rw [countUpGo, if_neg h, ih hrest]
      rw [List.countP_cons]
      have hd : decide (p.defn.id ≤ t) = true := by
        simp only [decide_eq_true_eq]
        omega
      rw [hd]
      simp
      omega

theorem getVersionSummary_ok (env : WorkerEnv) (rows : List Version)
    (h : ∀ v ∈ rows, v.failed = false) :
    getVersionSummary env rows = .ok (getVersionSummaryAllowFailed env rows) := by
  have hnone : firstFailed (getVersionSummaryAllowFailed env rows) = none := by
    rw [firstFailed, List.find?_eq_none]
    intro w hw
    rcases gvsaf_versions_sub env rows w hw with ⟨v, hv, hc⟩ | ⟨-, hf, -, -⟩
    · rw [hc.2.1, h v hv]
      simp
    · rw [hf]
      simp
  rw [getVersionSummary, hnone]

theorem gvsaf_applied_eq (env : WorkerEnv) (rows : List Version) :
    (getVersionSummaryAllowFailed env rows).applied =
      sortPlansDesc (env.plans.filter (appliedIn rows)) := by
  obtain ⟨vs0, -, hap0, -, -, hap, -⟩ := gvsaf_fields env rows
  rw [hap, summaryFold_applied, hap0]
  rfl

theorem gvsaf_unapplied_eq (env : WorkerEnv) (rows : List Version) :
    (getVersionSummaryAllowFailed env rows).unapplied =
      sortPlansAsc (env.plans.filter (fun p => ! appliedIn rows p)) := by
  obtain ⟨vs0, -, -, hun0, -, -, hun⟩ := gvsaf_fields env rows
  rw [hun, summaryFold_unapplied, hun0]
  rfl

/-- The measure as plan counts over the unsorted plan list. -/
theorem gotoMeasure_eq_countP (env : WorkerEnv) (target : Int) (rows : List Version) :
    gotoMeasure env target rows =
      env.plans.countP (fun p => decide (target < p.defn.id) && appliedIn rows p) +
      env.plans.countP (fun p => decide (p.defn.id ≤ target) && ! appliedIn rows p) := by
  rw [gotoMeasure, gvsaf_applied_eq, gvsaf_unapplied_eq]
  rw [countDownGo_eq_countP target _ (sortPlansDesc_sorted _),
    countUpGo_eq_countP target _ (sortPlansAsc_sorted _)]
  rw [countP_sortPlansDesc, countP_sortPlansAsc]
  rw [List.countP_filter, List.countP_filter]

/-- Row ids after deleting a version. -/
theorem appliedIn_delete (rows : List Version) (i : Int) (p : migrationPlan) :
    appliedIn (deleteVersionRow rows i) p =
      (appliedIn rows p && ! (p.defn.id == i)) := by
  by_cases h1 : p.defn.id = i
  · subst h1
    simp [appliedIn, deleteVersionRow, List.mem_map, List.mem_filter]
  · by_cases h2 : p.defn.id ∈ rows.map (·.id)
    · simp only [List.mem_map] at h2
      obtain ⟨v, hv, hvid⟩ := h2
      have : p.defn.id ∈ (deleteVersionRow rows i).map (·.id) := by
        rw [List.mem_map]
        refine ⟨v, ?_, hvid⟩
        rw [deleteVersionRow, List.mem_filter]
        exact ⟨hv, by simp [hvid, h1]⟩
      simp [appliedIn, this, h1]
      exact ⟨v, hv, hvid⟩
    · have : ¬ p.defn.id ∈ (deleteVersionRow rows i).map (·.id) := by
        rw [List.mem_map]
        rintro ⟨v, hv, hvid⟩
        rw [deleteVersionRow, List.mem_filter] at hv
        exact h2 (List.mem_map.mpr ⟨v, hv.1, hvid⟩)
      simp [appliedIn, this, h2]

/-- Row ids after inserting a version. -/
theorem appliedIn_insert (rows : List Version) (v : Version) (p : migrationPlan) :
    appliedIn (insertVersionRow rows v) p =
      (appliedIn rows p || p.defn.id == v.id) := by
  by_cases h : p.defn.id ∈ rows.map (·.id) <;>
    by_cases h2 : p.defn.id = v.id <;>
      simp [appliedIn, insertVersionRow, h, h2]

theorem countP_not_add (q : migrationPlan → Bool) (l : List migrationPlan) :
    l.countP q + l.countP (fun p => ! q p) = l.length := by
  induction l with
  | nil => simp
  | cons p rest ih =>
    rw [List.countP_cons, List.countP_cons]
    cases hq : q p <;> simp [hq] <;> omega

theorem countP_erase_id (l : List migrationPlan)
    (hnodup : (l.map (fun p => p.defn.id)).Nodup)
    (pT : migrationPlan) (hmem : pT ∈ l)
    (q : migrationPlan → Bool) (hq : q pT = true) :
    l.countP (fun p => q p && ! (p.defn.id == pT.defn.id)) + 1 = l.countP q := by
  obtain ⟨l1, l2, rfl⟩ := List.append_of_mem hmem
  rw [List.map_append, List.map_cons] at hnodup
  have hnotin1 : ∀ p ∈ l1, p.defn.id ≠ pT.defn.id := by
    intro p hp heq
    have h1 : pT.defn.id ∈ l1.map (fun p => p.defn.id) :=
      List.mem_map.mpr ⟨p, hp, heq⟩
    have := (List.nodup_append.mp hnodup).2.2
    exact this h1 (List.mem_cons_self _ _)
  have hnotin2 : ∀ p ∈ l2, p.defn.id ≠ pT.defn.id := by
    intro p hp heq
    have hnd := (List.nodup_append.mp hnodup).2.1
    have : pT.defn.id ∈ l2.map (fun p => p.defn.id) :=
      List.mem_map.mpr ⟨p, hp, heq⟩
    exact (List.nodup_cons.mp hnd).1 this
  rw [List.countP_append, List.countP_append, List.countP_cons, List.countP_cons]
  have he1 : l1.countP (fun p => q p && ! (p.defn.id == pT.defn.id)) = l1.countP q := by
    apply List.countP_congr
    intro p hp
    simp [hnotin1 p hp]
  have he2 : l2.countP (fun p => q p && ! (p.defn.id == pT.defn.id)) = l2.countP q := by
    apply List.countP_congr
    intro p hp
    simp [hnotin2 p hp]
  rw [he1, he2]
  simp [hq]
  omega

theorem gvsaf_row_match (env : WorkerEnv) (rows : List Version)
    (hnodupR : (rows.map (·.id)).Nodup) (v : Version) (hv : v ∈ rows) :
    ∀ w ∈ (getVersionSummaryAllowFailed env rows).versions, w.id = v.id →
      sameCore w v := by
  intro w hw hwid
  rcases gvsaf_versions_sub env rows w hw with ⟨v', hv', hc⟩ | ⟨-, -, -, hcont⟩
  · have hveq : v' = v := by
      have hinj := List.inj_on_of_nodup_map hnodupR
      exact hinj hv' hv (by rw [← hc.1, hwid])
    rw [← hveq]
    exact hc
  · exfalso
    have : (rows.map (·.id)).contains w.id = true := by
      rw [hwid]
      exact List.elem_eq_true_of_mem (List.mem_map.mpr ⟨v, hv, rfl⟩)
    rw [this] at hcont
    cases hcont

theorem lookupLocked_eq_row (env : WorkerEnv) (rows : List Version)
    (hnodupR : (rows.map (·.id)).Nodup) (v : Version) (hv : v ∈ rows) :
    lookupLocked (getVersionSummaryAllowFailed env rows) v.id = v.locked := by
  obtain ⟨w, hw, hwid⟩ := gvsaf_covers env rows v.id (Or.inl ⟨v, hv, rfl⟩)
  have hsome : ((getVersionSummaryAllowFailed env rows).versions.find?
      (fun x => decide (x.id = v.id))).isSome := by
    rw [List.find?_isSome]
    exact ⟨w, hw, decide_eq_true hwid⟩
  obtain ⟨w0, hw0⟩ := Option.isSome_iff_exists.mp hsome
  have hid0 : w0.id = v.id := by
    have hp := List.find?_some hw0
    simpa using hp
  have hcore := gvsaf_row_match env rows hnodupR v hv w0
    (List.mem_of_find?_eq_some hw0) hid0
  rw [lookupLocked, vsLookup, hw0]
  simp [hcore.2.2.1]

/-- A true locked flag in the summary always comes from a locked row. -/
theorem lookupLocked_true_row (env : WorkerEnv) (rows : List Version) (i : Int)
    (h : lookupLocked (getVersionSummaryAllowFailed env rows) i = true) :
    ∃ v ∈ rows, v.id = i ∧ v.locked = true := by
  rw [lookupLocked, vsLookup] at h
  cases hf : (getVersionSummaryAllowFailed env rows).versions.find?
      (fun x => decide (x.id = i)) with
  | none =>
    rw [hf] at h
    simp at h
  | some w =>
    rw [hf] at h
    simp only [Option.map_some', Option.getD_some] at h
    have hid : w.id = i := by
      have hp := List.find?_some hf
      simpa using hp
    rcases gvsaf_versions_sub env rows w (List.mem_of_find?_eq_some hf) with
      ⟨v, hv, hc⟩ | ⟨-, -, hl, -⟩
    · exact ⟨v, hv, by rw [← hc.1, hid], by rw [← hc.2.2.1, h]⟩
    · rw [hl] at h
      cases h

theorem checkLockedGo_none (vs : versionSummary) (t : Int) :
    ∀ l : List migrationPlan,
      (∀ p ∈ l, t < p.defn.id → lookupLocked vs p.defn.id = false) →
      checkLockedGo vs t l = none := by
  intro l
  induction l with
  | nil => intro _; rfl
  | cons p rest ih =>
    intro h
    rw [checkLockedGo]
    by_cases hle : p.defn.id ≤ t
    · rw [if_pos hle]
    · rw [if_neg hle]
      have hl := h p (List.mem_cons_self _ _) (by omega)
      rw [show (((vsLookup vs p.defn.id).map (·.locked)).getD false) =
        lookupLocked vs p.defn.id from rfl, hl]
      rw [if_neg (by decide : ¬ (false = true))]
      exact ih (fun q hq ht => h q (List.mem_cons_of_mem _ hq) ht)

theorem checkLockedGo_some (vs : versionSummary) (t W : Int) :
    ∀ l : List migrationPlan,
      List.Pairwise (fun a b => b.defn.id ≤ a.defn.id) l →
      (∃ p ∈ l, p.defn.id = W) → t < W →
      lookupLocked vs W = true →
      (∀ p ∈ l, t < p.defn.id → lookupLocked vs p.defn.id = true → p.defn.id ≤ W) →
      checkLockedGo vs t l = some ("database version locked id=" ++ toString W) := by
  intro l
  induction l with
  | nil =>
    rintro - ⟨p, hp, -⟩
    cases hp
  | cons p rest ih =>
    rintro hs ⟨q, hq, hqW⟩ htW hWl hmax
    have hhead : ∀ x ∈ rest, x.defn.id ≤ p.defn.id := by
      intro x hx
      exact List.rel_of_pairwise_cons hs hx
    have hWle : W ≤ p.defn.id := by
      rcases List.mem_cons.mp hq with rfl | hq2
      · omega
      · have := hhead q hq2
        omega
    rw [checkLockedGo]
    have hnle : ¬ p.defn.id ≤ t := by omega
    rw [if_neg hnle]
    by_cases hpl : lookupLocked vs p.defn.id = true
    · have hple : p.defn.id ≤ W := hmax p (List.mem_cons_self _ _) (by omega) hpl
      have : p.defn.id = W := by omega
      rw [show (((vsLookup vs p.defn.id).map (·.locked)).getD false) =
        lookupLocked vs p.defn.id from rfl, hpl]
      simp [this]
    · have hpW : p.defn.id ≠ W := by
        rintro rfl
        exact hpl hWl
      have hqrest : q ∈ rest := by
        rcases List.mem_cons.mp hq with rfl | hq2
        · exact absurd hqW hpW
        · exact hq2
      rw [show (((vsLookup vs p.defn.id).map (·.locked)).getD false) =
        lookupLocked vs p.defn.id from rfl]
      rw [Bool.not_eq_true] at hpl
      rw [hpl]
      rw [if_neg (by decide : ¬ (false = true))]
      exact ih hs.of_cons ⟨q, hqrest, hqW⟩ htW hWl
        (fun x hx ht hl => hmax x (List.mem_cons_of_mem _ hx) ht hl)

theorem appliedIn_row (rows : List Version) (p : migrationPlan)
    (h : appliedIn rows p = true) : ∃ v ∈ rows, v.id = p.defn.id := by
  have := List.mem_of_elem_eq_true h
  rw [List.mem_map] at this
  obtain ⟨v, hv, hvid⟩ := this
  exact ⟨v, hv, hvid⟩

theorem checkLocked_none_of_noLock (env : WorkerEnv) (rows : List Version)
    (target : Int)
    (hNL : ∀ j, ¬ lockedAbove env rows target j) :
    checkLocked (getVersionSummaryAllowFailed env rows) target = none := by
  rw [checkLocked]
  apply checkLockedGo_none
  intro p hp ht
  rw [gvsaf_applied_eq, mem_sortPlansDesc, List.mem_filter] at hp
  by_contra hcon
  rw [Bool.not_eq_false] at hcon
  obtain ⟨v, hv, hvid, hvl⟩ := lookupLocked_true_row env rows p.defn.id hcon
  exact hNL p.defn.id ⟨ht, ⟨p, hp.1, rfl⟩, ⟨v, hv, hvid, hvl⟩⟩

theorem downOne_step (env : WorkerEnv) (rows : List Version) (target : Int)
    (hTX : env.supportsTxDDL = true)
    (hDB : ∀ p ∈ env.plans, p.defn.upDB = false ∧ p.defn.downDB = false)
    (hOK : ∀ i, env.upOk i = true ∧ env.downOk i = true)
    (hNR : (rows.map (·.id)).Nodup)
    (hNF : ∀ v ∈ rows, v.failed = false)
    (hNL : ∀ j, ¬ lockedAbove env rows target j)
    (hDC : 0 < countDownGo target (getVersionSummaryAllowFailed env rows).applied) :
    ∃ pTop : migrationPlan,
      pTop ∈ env.plans ∧ appliedIn rows pTop = true ∧ target < pTop.defn.id ∧
      (downOne env rows).rows = deleteVersionRow rows pTop.defn.id ∧
      (downOne env rows).err = none := by
  have hsum := getVersionSummary_ok env rows hNF
  cases happ : (getVersionSummaryAllowFailed env rows).applied with
  | nil =>
    rw [happ, countDownGo] at hDC
    cases hDC
  | cons pTop restA =>
    have hmem : pTop ∈ env.plans ∧ appliedIn rows pTop = true := by
      have : pTop ∈ (getVersionSummaryAllowFailed env rows).applied := by
        rw [happ]
        exact List.mem_cons_self _ _
      rw [gvsaf_applied_eq, mem_sortPlansDesc, List.mem_filter] at this
      exact this
    have htgt : target < pTop.defn.id := by
      rw [happ, countDownGo] at hDC
      by_contra hcon
      rw [if_pos (by omega)] at hDC
      cases hDC
    obtain ⟨v, hv, hvid⟩ := appliedIn_row rows pTop hmem.2
    obtain ⟨w, hw, hwid⟩ := gvsaf_covers env rows pTop.defn.id
      (Or.inl ⟨v, hv, hvid⟩)
    have hsome : ((getVersionSummaryAllowFailed env rows).versions.find?
        (fun x => decide (x.id = pTop.defn.id))).isSome := by
      rw [List.find?_isSome]
      exact ⟨w, hw, decide_eq_true hwid⟩
    obtain ⟨w0, hw0⟩ := Option.isSome_iff_exists.mp hsome
    have hid0 : w0.id = pTop.defn.id := by
      have hp := List.find?_some hw0
      simpa using hp
    have hcore := gvsaf_row_match env rows hNR v hv w0
      (List.mem_of_find?_eq_some hw0) (by rw [hid0, hvid])
    have hvlocked : v.locked = false := by
      by_contra hcon
      rw [Bool.not_eq_false] at hcon
      exact hNL pTop.defn.id ⟨htgt, ⟨pTop, hmem.1, rfl⟩, ⟨v, hv, hvid, hcon⟩⟩
    have hw0locked : w0.locked = false := by
      rw [hcore.2.2.1, hvlocked]
    refine ⟨pTop, hmem.1, hmem.2, htgt, ?_, ?_⟩ <;>
    · simp only [downOne, hsum, happ, hw0, hw0locked]
      by_cases hdtx : pTop.defn.downTx = true
      · simp [hdtx, (hOK pTop.defn.id).2]
      · simp [hdtx, hTX, (hDB pTop hmem.1).2, (hOK pTop.defn.id).2]

theorem upOne_step (env : WorkerEnv) (rows : List Version) (target : Int)
    (hTX : env.supportsTxDDL = true)
    (hDB : ∀ p ∈ env.plans, p.defn.upDB = false ∧ p.defn.downDB = false)
    (hOK : ∀ i, env.upOk i = true ∧ env.downOk i = true)
    (hNF : ∀ v ∈ rows, v.failed = false)
    (hUC : 0 < countUpGo target (getVersionSummaryAllowFailed env rows).unapplied) :
    ∃ pLow : migrationPlan,
      pLow ∈ env.plans ∧ appliedIn rows pLow = false ∧ pLow.defn.id ≤ target ∧
      (upOne env rows).rows =
        insertVersionRow rows { id := pLow.defn.id, appliedAt := some env.now } ∧
      (upOne env rows).err = none := by
  have hsum := getVersionSummary_ok env rows hNF
  cases hun : (getVersionSummaryAllowFailed env rows).unapplied with
  | nil =>
    rw [hun, countUpGo] at hUC
    cases hUC
  | cons pLow restU =>
    have hmem : pLow ∈ env.plans ∧ (! appliedIn rows pLow) = true := by
      have : pLow ∈ (getVersionSummaryAllowFailed env rows).unapplied := by
        rw [hun]
        exact List.mem_cons_self _ _
      rw [gvsaf_unapplied_eq, mem_sortPlansAsc, List.mem_filter] at this
      exact this
    have htgt : pLow.defn.id ≤ target := by
      rw [hun, countUpGo] at hUC
      by_contra hcon
      rw [if_pos (by omega)] at hUC
      cases hUC
    refine ⟨pLow, hmem.1, by simpa using hmem.2, htgt, ?_, ?_⟩ <;>
    · simp only [upOne, hsum, hun]
      by_cases hutx : pLow.defn.upTx = true
      · simp [hutx, (hOK pLow.defn.id).1]
      · simp [hutx, hTX, (hDB pLow hmem.1).1, (hOK pLow.defn.id).1]

theorem measure_delete (env : WorkerEnv) (rows : List Version) (target : Int)
    (hND : (env.plans.map (fun p => p.defn.id)).Nodup)
    (pTop : migrationPlan) (hp : pTop ∈ env.plans)
    (hap : appliedIn rows pTop = true) (htgt : target < pTop.defn.id) :
    gotoMeasure env target (deleteVersionRow rows pTop.defn.id) + 1 =
      gotoMeasure env target rows := by
  rw [gotoMeasure_eq_countP, gotoMeasure_eq_countP]
  have hdown : env.plans.countP
      (fun p => decide (target < p.defn.id) && appliedIn (deleteVersionRow rows pTop.defn.id) p) + 1 =
      env.plans.countP (fun p => decide (target < p.defn.id) && appliedIn rows p) := by
    have hcg : env.plans.countP
        (fun p => decide (target < p.defn.id) && appliedIn (deleteVersionRow rows pTop.defn.id) p) =
        env.plans.countP
          (fun p => (decide (target < p.defn.id) && appliedIn rows p) &&
            ! (p.defn.id == pTop.defn.id)) := by
      apply List.countP_congr
      intro p _
      rw [appliedIn_delete]
      cases decide (target < p.defn.id) <;> cases appliedIn rows p <;>
        cases h : (p.defn.id == pTop.defn.id) <;> simp [h]
    rw [hcg]
    exact countP_erase_id env.plans hND pTop hp _ (by simp [hap, htgt])
  have hup : env.plans.countP
      (fun p => decide (p.defn.id ≤ target) && ! appliedIn (deleteVersionRow rows pTop.defn.id) p) =
      env.plans.countP (fun p => decide (p.defn.id ≤ target) && ! appliedIn rows p) := by
    apply List.countP_congr
    intro p _
    rw [appliedIn_delete]
    by_cases hid : p.defn.id = pTop.defn.id
    · have h1 : decide (p.defn.id ≤ target) = false := by
        simp only [decide_eq_false_iff_not]
        omega
      rw [h1]
      simp
    · have h2 : (p.defn.id == pTop.defn.id) = false := by
        simp [hid]
      rw [h2]
      simp
  omega

theorem measure_insert (env : WorkerEnv) (rows : List Version) (target : Int)
    (hND : (env.plans.map (fun p => p.defn.id)).Nodup)
    (pLow : migrationPlan) (hp : pLow ∈ env.plans)
    (hap : appliedIn rows pLow = false) (htgt : pLow.defn.id ≤ target)
    (v : Version) (hvid : v.id = pLow.defn.id) :
    gotoMeasure env target (insertVersionRow rows v) + 1 =
      gotoMeasure env target rows := by
  rw [gotoMeasure_eq_countP, gotoMeasure_eq_countP]
  have hup : env.plans.countP
      (fun p => decide (p.defn.id ≤ target) && ! appliedIn (insertVersionRow rows v) p) + 1 =
      env.plans.countP (fun p => decide (p.defn.id ≤ target) && ! appliedIn rows p) := by
    have hcg : env.plans.countP
        (fun p => decide (p.defn.id ≤ target) && ! appliedIn (insertVersionRow rows v) p) =
        env.plans.countP
          (fun p => (decide (p.defn.id ≤ target) && ! appliedIn rows p) &&
            ! (p.defn.id == pLow.defn.id)) := by
      apply List.countP_congr
      intro p _
      rw [appliedIn_insert, hvid]
      cases decide (p.defn.id ≤ target) <;> cases appliedIn rows p <;>
        cases h : (p.defn.id == pLow.defn.id) <;> simp [h]
    rw [hcg]
    exact countP_erase_id env.plans hND pLow hp _ (by simp [hap, htgt])
  have hdown : env.plans.countP
      (fun p => decide (target < p.defn.id) && appliedIn (insertVersionRow rows v) p) =
      env.plans.countP (fun p => decide (target < p.defn.id) && appliedIn rows p) := by
    apply List.countP_congr
    intro p _
    rw [appliedIn_insert, hvid]
    by_cases hid : p.defn.id = pLow.defn.id
    · have h1 : decide (target < p.defn.id) = false := by
        simp only [decide_eq_false_iff_not]
        omega
      rw [h1]
      simp
    · have h2 : (p.defn.id == pLow.defn.id) = false := by
        simp [hid]
      rw [h2]
      simp
  omega

theorem goodRows_delete (env : WorkerEnv) (rows : List Version) (target i : Int)
    (hNR : (rows.map (·.id)).Nodup)
    (hNF : ∀ v ∈ rows, v.failed = false)
    (hNL : ∀ j, ¬ lockedAbove env rows target j) :
    ((deleteVersionRow rows i).map (·.id)).Nodup ∧
    (∀ v ∈ deleteVersionRow rows i, v.failed = false) ∧
    (∀ j, ¬ lockedAbove env (deleteVersionRow rows i) target j) := by
  have hsub : List.Sublist (deleteVersionRow rows i) rows := List.filter_sublist rows
  refine ⟨((hsub.map (·.id)).nodup hNR), ?_, ?_⟩
  · intro v hv
    exact hNF v (hsub.mem hv)
  · rintro j ⟨ht, hplan, v, hv, hvid, hvl⟩
    exact hNL j ⟨ht, hplan, v, hsub.mem hv, hvid, hvl⟩

theorem goodRows_insert (env : WorkerEnv) (rows : List Version) (target : Int)
    (v : Version)
    (hNR : (rows.map (·.id)).Nodup)
    (hNF : ∀ w ∈ rows, w.failed = false)
    (hNL : ∀ j, ¬ lockedAbove env rows target j)
    (hfresh : ¬ v.id ∈ rows.map (·.id))
    (hvf : v.failed = false) (hvl : v.locked = false) :
    ((insertVersionRow rows v).map (·.id)).Nodup ∧
    (∀ w ∈ insertVersionRow rows v, w.failed = false) ∧
    (∀ j, ¬ lockedAbove env (insertVersionRow rows v) target j) := by
  refine ⟨?_, ?_, ?_⟩
  · rw [insertVersionRow, List.map_append]
    rw [List.nodup_append]
    refine ⟨hNR, List.nodup_singleton _, ?_⟩
    intro a ha hb
    simp only [List.map_cons, List.map_nil, List.mem_singleton] at hb
    rw [hb] at ha
    exact hfresh ha
  · intro w hw
    rcases List.mem_append.mp hw with h | h
    · exact hNF w h
    · rw [List.mem_singleton] at h
      rw [h, hvf]
  · rintro j ⟨ht, hplan, w, hw, hwid, hwl⟩
    rcases List.mem_append.mp hw with h | h
    · exact hNL j ⟨ht, hplan, w, h, hwid, hwl⟩
    · rw [List.mem_singleton] at h
      rw [h] at hwl
      rw [hvl] at hwl
      cases hwl

theorem gotoOne_step (env : WorkerEnv) (rows : List Version) (target : Int)
    (hND : (env.plans.map (fun p => p.defn.id)).Nodup)
    (hTX : env.supportsTxDDL = true)
    (hDB : ∀ p ∈ env.plans, p.defn.upDB = false ∧ p.defn.downDB = false)
    (hOK : ∀ i, env.upOk i = true ∧ env.downOk i = true)
    (hNR : (rows.map (·.id)).Nodup)
    (hNF : ∀ v ∈ rows, v.failed = false)
    (hNL : ∀ j, ¬ lockedAbove env rows target j) :
    (0 < gotoMeasure env target rows →
      (gotoOne env rows target).err = none ∧
      (((gotoOne env rows target).rows.map (·.id)).Nodup ∧
       (∀ v ∈ (gotoOne env rows target).rows, v.failed = false) ∧
       (∀ j, ¬ lockedAbove env (gotoOne env rows target).rows target j)) ∧
      gotoMeasure env target (gotoOne env rows target).rows + 1 =
        gotoMeasure env target rows ∧
      (gotoOne env rows target).more =
        decide (0 < gotoMeasure env target rows - 1)) ∧
    (gotoMeasure env target rows = 0 →
      gotoOne env rows target = ⟨rows, [], false, none⟩) := by
  have hsum := getVersionSummary_ok env rows hNF
  have hchk := checkLocked_none_of_noLock env rows target hNL
  constructor
  · intro hpos
    by_cases hdc : 0 < countDownGo target (getVersionSummaryAllowFailed env rows).applied
    · obtain ⟨pTop, hp, hap, htgt, hrows, herr⟩ :=
        downOne_step env rows target hTX hDB hOK hNR hNF hNL hdc
      have hres : gotoOne env rows target =
          ⟨(downOne env rows).rows, (downOne env rows).calls,
            decide (0 < (countDownGo target (getVersionSummaryAllowFailed env rows).applied - 1) +
              countUpGo target (getVersionSummaryAllowFailed env rows).unapplied), none⟩ := by
        simp only [gotoOne, hsum, hchk, if_pos hdc]
        rw [show (downOne env rows).err = none from herr]
      have hmeas : gotoMeasure env target (downOne env rows).rows + 1 =
          gotoMeasure env target rows := by
        rw [hrows]
        exact measure_delete env rows target hND pTop hp hap htgt
      obtain ⟨hn, hf, hl⟩ := goodRows_delete env rows target pTop.defn.id hNR hNF hNL
      refine ⟨by rw [hres], ⟨?_, ?_, ?_⟩, ?_, ?_⟩
      · rw [hres]
        simpa [hrows] using hn
      · rw [hres]
        intro v hv
        rw [hrows] at hv
        exact hf v hv
      · rw [hres]
        intro j
        rw [hrows]
        exact hl j
      · rw [hres]
        exact hmeas
      · rw [hres]
        show decide _ = decide _
        rw [decide_eq_decide]
        rw [gotoMeasure] at hpos ⊢
        omega
    · have huc : 0 < countUpGo target (getVersionSummaryAllowFailed env rows).unapplied := by
        rw [gotoMeasure] at hpos
        omega
      obtain ⟨pLow, hp, hap, htgt, hrows, herr⟩ :=
        upOne_step env rows target hTX hDB hOK hNF huc
      have hres : gotoOne env rows target =
          ⟨(upOne env rows).rows, (upOne env rows).calls,
            decide (0 < countDownGo target (getVersionSummaryAllowFailed env rows).applied +
              (countUpGo target (getVersionSummaryAllowFailed env rows).unapplied - 1)), none⟩ := by
        simp only [gotoOne, hsum, hchk, if_neg hdc, if_pos huc]
        rw [show (upOne env rows).err = none from herr]
      have hfresh : ¬ (pLow.defn.id ∈ rows.map (·.id)) := by
        intro hcon
        rw [show appliedIn rows pLow = true from List.elem_eq_true_of_mem hcon] at hap
        cases hap
      have hmeas : gotoMeasure env target (upOne env rows).rows + 1 =
          gotoMeasure env target rows := by
        rw [hrows]
        exact measure_insert env rows target hND pLow hp hap htgt _ rfl
      obtain ⟨hn, hf, hl⟩ := goodRows_insert env rows target
        { id := pLow.defn.id, appliedAt := some env.now } hNR hNF hNL hfresh rfl rfl
      refine ⟨by rw [hres], ⟨?_, ?_, ?_⟩, ?_, ?_⟩
      · rw [hres]
        simpa [hrows] using hn
      · rw [hres]
        intro v hv
        rw [hrows] at hv
        exact hf v hv
      · rw [hres]
        intro j
        rw [hrows]
        exact hl j
      · rw [hres]
        exact hmeas
      · rw [hres]
        show decide _ = decide _
        rw [decide_eq_decide]
        rw [gotoMeasure] at hpos ⊢
        omega
  · intro hzero
    rw [gotoMeasure] at hzero
    have hdc : countDownGo target (getVersionSummaryAllowFailed env rows).applied = 0 := by
      omega
    have huc : countUpGo target (getVersionSummaryAllowFailed env rows).unapplied = 0 := by
      omega
    simp only [gotoOne, hsum, hchk, hdc, huc]
    rfl

theorem gotoLoop_ok (env : WorkerEnv) (target : Int)
    (hND : (env.plans.map (fun p => p.defn.id)).Nodup)
    (hTX : env.supportsTxDDL = true)
    (hDB : ∀ p ∈ env.plans, p.defn.upDB = false ∧ p.defn.downDB = false)
    (hOK : ∀ i, env.upOk i = true ∧ env.downOk i = true) :
    ∀ fuel (rows : List Version),
      (rows.map (·.id)).Nodup →
      (∀ v ∈ rows, v.failed = false) →
      (∀ j, ¬ lockedAbove env rows target j) →
      gotoMeasure env target rows < fuel →
      (gotoLoop env target fuel rows).err = none := by
  intro fuel
  induction fuel with
  | zero =>
    intro rows _ _ _ h
    omega
  | succ n ih =>
    intro rows hNR hNF hNL hlt
    obtain ⟨hstep, hzero⟩ := gotoOne_step env rows target hND hTX hDB hOK hNR hNF hNL
    by_cases hpos : 0 < gotoMeasure env target rows
    · obtain ⟨herr, ⟨hn, hf, hl⟩, hmeas, hmore⟩ := hstep hpos
      simp only [gotoLoop, herr]
      cases hmore2 : (gotoOne env rows target).more with
      | false => simp
      | true =>
        simp only [if_pos rfl, if_true]
        rw [hmore2] at hmore
        have hgt : 0 < gotoMeasure env target rows - 1 := by
          have := of_decide_eq_true hmore.symm
          exact this
        exact ih (gotoOne env rows target).rows hn hf hl (by omega)
    · have hz : gotoMeasure env target rows = 0 := by omega
      rw [gotoLoop, hzero hz]
      simp

theorem checkLocked_some_of_max (env : WorkerEnv) (rows : List Version)
    (target W : Int)
    (hNR : (rows.map (·.id)).Nodup)
    (hW : lockedAbove env rows target W)
    (hmax : ∀ j, lockedAbove env rows target j → j ≤ W) :
    checkLocked (getVersionSummaryAllowFailed env rows) target =
      some ("database version locked id=" ++ toString W) := by
  obtain ⟨htW, ⟨pW, hpW, hpWid⟩, ⟨v, hv, hvid, hvl⟩⟩ := hW
  rw [checkLocked]
  have hsorted : List.Pairwise (fun a b => b.defn.id ≤ a.defn.id)
      (getVersionSummaryAllowFailed env rows).applied := by
    rw [gvsaf_applied_eq]
    exact sortPlansDesc_sorted _
  apply checkLockedGo_some _ _ _ _ hsorted
  · refine ⟨pW, ?_, hpWid⟩
    rw [gvsaf_applied_eq, mem_sortPlansDesc, List.mem_filter]
    refine ⟨hpW, ?_⟩
    rw [appliedIn]
    apply List.elem_eq_true_of_mem
    rw [List.mem_map]
    exact ⟨v, hv, by rw [hvid, hpWid]⟩
  · exact htW
  · have := lookupLocked_eq_row env rows hNR v hv
    rw [hvid] at this
    rw [this, hvl]
  · intro p hp ht hl
    rw [gvsaf_applied_eq, mem_sortPlansDesc, List.mem_filter] at hp
    obtain ⟨v2, hv2, hv2id, hv2l⟩ := lookupLocked_true_row env rows p.defn.id hl
    exact hmax p.defn.id ⟨ht, ⟨p, hp.1, rfl⟩, ⟨v2, hv2, hv2id, hv2l⟩⟩

theorem unlock_ok (env : WorkerEnv) (rows : List Version) (W : Int)
    (hNF : ∀ v ∈ rows, v.failed = false)
    (hdefW : ∃ p ∈ env.plans, p.defn.id = W)
    (happ : ∃ v ∈ rows, v.id = W) :
    Worker.Unlock env rows W =
      ⟨setVersionLockedRow rows W false, [.setVersionLocked W false], none⟩ := by
  obtain ⟨pW, hpW, hpWid⟩ := hdefW
  obtain ⟨v, hv, hvid⟩ := happ
  have hcv : checkVersion env W = none :=
    checkVersion_defined env W (Or.inr ⟨pW, hpW, hpWid⟩)
  have hsum := getVersionSummary_ok env rows hNF
  have hany : (getVersionSummaryAllowFailed env rows).applied.any
      (fun p => decide (p.defn.id = W)) = true := by
    rw [List.any_eq_true]
    refine ⟨pW, ?_, decide_eq_true hpWid⟩
    rw [gvsaf_applied_eq, mem_sortPlansDesc, List.mem_filter]
    refine ⟨hpW, ?_⟩
    rw [appliedIn]
    apply List.elem_eq_true_of_mem
    rw [List.mem_map]
    exact ⟨v, hv, by rw [hvid, hpWid]⟩
  rw [Worker.Unlock, lockHelper, hcv, hsum]
  simp [hany]

theorem setVersionLockedRow_ids (rows : List Version) (i : Int) (b : Bool) :
    (setVersionLockedRow rows i b).map (·.id) = rows.map (·.id) := by
  rw [setVersionLockedRow, List.map_map]
  apply List.map_congr_left
  intro v _
  by_cases h : v.id = i <;> simp [h]

theorem gotoMeasure_le (env : WorkerEnv) (target : Int) (rows : List Version) :
    gotoMeasure env target rows ≤ env.plans.length := by
  rw [gotoMeasure_eq_countP]
  have h1 := countP_not_add (appliedIn rows) env.plans
  have c1 : env.plans.countP (fun p => decide (target < p.defn.id) && appliedIn rows p) ≤
      env.plans.countP (appliedIn rows) := by
    apply List.countP_mono_left
    intro p _ hp
    simp only [Bool.and_eq_true] at hp
    exact hp.2
  have c2 : env.plans.countP
      (fun p => decide (p.defn.id ≤ target) && ! appliedIn rows p) ≤
      env.plans.countP (fun p => ! appliedIn rows p) := by
    apply List.countP_mono_left
    intro p _ hp
    simp only [Bool.and_eq_true] at hp
    exact hp.2
  omega

theorem noLockedAbove_of_rows (env : WorkerEnv) (rows : List Version) (target : Int)
    (h : ∀ v ∈ rows, target < v.id → v.locked = false) :
    ∀ j, ¬ lockedAbove env rows target j := by
  rintro j ⟨ht, -, ⟨v, hv, hvid, hvl⟩⟩
  have := h v hv (by omega)
  rw [this] at hvl
  cases hvl

theorem lockedAbove_le_of_rows (env : WorkerEnv) (rows : List Version)
    (target M : Int)
    (h : ∀ v ∈ rows, v.locked = true → v.id ≤ M) :
    ∀ j, lockedAbove env rows target j → j ≤ M := by
  rintro j ⟨-, -, ⟨v, hv, hvid, hvl⟩⟩
  have := h v hv hvl
  omega

/-- Counterexample for C9 as stated: with versions 10, 20 and 30 applied and
both 20 and 30 locked, Goto(10) fails identifying version 30; after Unlock of
that identified version, the same Goto still fails (now on version 20), so
the call does not succeed as the claim asserts. -/
theorem c9_locked_goto_counterexample :
    (Worker.Goto exEnvC 4 exRowsC 10).err = some "database version locked id=30" ∧
    (Worker.Unlock exEnvC exRowsC 30).err = none ∧
    (Worker.Goto exEnvC 4 (Worker.Unlock exEnvC exRowsC 30).rows 10).err ≠ none ∧
    (Worker.Goto exEnvC 4 (Worker.Unlock exEnvC exRowsC 30).rows 10).err =
      some "database version locked id=20" := by
  refine ⟨by decide, by decide, by decide, by decide⟩

/-- C9 (amended): scanning the applied plans from the most recently applied
backward and stopping at the first plan at or below the target, if a locked
version is visited then Goto fails with a version-locked error identifying
the most recent (highest) such version W; Unlock(W) succeeds, and — provided
no other locked version lies above the target — the same Goto then succeeds,
assuming no row is failed, plan and row ids are unique, and every migration
runs successfully in a transaction (transactional DDL supported, no
non-transactional executors). -/
theorem c9_locked_goto (env : WorkerEnv) (rows : List Version)
    (target W : Int) (fuel : Nat)
    (hND : (env.plans.map (fun p => p.defn.id)).Nodup)
    (hTX : env.supportsTxDDL = true)
    (hDB : ∀ p ∈ env.plans, p.defn.upDB = false ∧ p.defn.downDB = false)
    (hOK : ∀ i, env.upOk i = true ∧ env.downOk i = true)
    (hNR : (rows.map (·.id)).Nodup)
    (hNF : ∀ v ∈ rows, v.failed = false)
    (hdef : target = 0 ∨ ∃ p ∈ env.plans, p.defn.id = target)
    (hfuel : env.plans.length + 1 ≤ fuel)
    (hW : lockedAbove env rows target W)
    (hmax : ∀ j, lockedAbove env rows target j → j ≤ W) :
    (Worker.Goto env fuel rows target).err =
      some ("database version locked id=" ++ toString W) ∧
    (Worker.Unlock env rows W).err = none ∧
    ((∀ j, ¬ lockedAbove env (Worker.Unlock env rows W).rows target j) →
      (Worker.Goto env fuel (Worker.Unlock env rows W).rows target).err = none) := by
  have hcv : checkVersion env target = none := checkVersion_defined env target hdef
  have hsum := getVersionSummary_ok env rows hNF
  have hlock := checkLocked_some_of_max env rows target W hNR hW hmax
  obtain ⟨n, rfl⟩ : ∃ n, fuel = n + 1 := ⟨fuel - 1, by omega⟩
  have hunlock := unlock_ok env rows W hNF hW.2.1
    (by obtain ⟨v, hv, hvid, -⟩ := hW.2.2; exact ⟨v, hv, hvid⟩)
  refine ⟨?_, ?_, ?_⟩
  · have hg1 : gotoOne env rows target =
        ⟨rows, [], false, some ("database version locked id=" ++ toString W)⟩ := by
      simp only [gotoOne, hsum, hlock]
    rw [Worker.Goto, hcv, gotoLoop, hg1]
  · rw [hunlock]
  · intro hNL2
    have hrows2 : (Worker.Unlock env rows W).rows = setVersionLockedRow rows W false := by
      rw [hunlock]
    have hNR2 : (((Worker.Unlock env rows W).rows).map (·.id)).Nodup := by
      rw [hrows2, setVersionLockedRow_ids]
      exact hNR
    have hNF2 : ∀ v ∈ (Worker.Unlock env rows W).rows, v.failed = false := by
      rw [hrows2]
      intro v hv
      rw [setVersionLockedRow, List.mem_map] at hv
      obtain ⟨w, hw, rfl⟩ := hv
      by_cases h : w.id = W <;> simp [h, hNF w hw]
    have hmeas : gotoMeasure env target (Worker.Unlock env rows W).rows < n + 1 := by
      have := gotoMeasure_le env target (Worker.Unlock env rows W).rows
      omega
    rw [Worker.Goto, hcv]
    exact gotoLoop_ok env target hND hTX hDB hOK (n + 1)
      (Worker.Unlock env rows W).rows hNR2 hNF2 hNL2 hmeas

/-- Witness for C9 (amended): versions 10, 20, 30 applied with only 30
locked; Goto(10) fails identifying 30, Unlock(30) succeeds, and the repeated
Goto(10) succeeds. -/
theorem c9_locked_goto_witness :
    lockedAbove exEnvC exRowsD 10 30 ∧
    (Worker.Goto exEnvC 4 exRowsD 10).err =
      some ("database version locked id=" ++ toString (30 : Int)) ∧
    (Worker.Unlock exEnvC exRowsD 30).err = none ∧
    (Worker.Goto exEnvC 4 (Worker.Unlock exEnvC exRowsD 30).rows 10).err = none := by
  have hla : lockedAbove exEnvC exRowsD 10 30 := by
    show (10 : Int) < 30 ∧ (∃ p ∈ exEnvC.plans, p.defn.id = 30) ∧
      (∃ v ∈ exRowsD, v.id = 30 ∧ v.locked = true)
    refine ⟨by decide, by decide, by decide⟩
  have h := c9_locked_goto exEnvC exRowsD 10 30 4
    (by decide) (by decide) (by decide) (fun i => ⟨rfl, rfl⟩)
    (by decide) (by decide) (by decide) (by decide)
    hla
    (lockedAbove_le_of_rows exEnvC exRowsD 10 30 (by decide))
  exact ⟨hla, h.1, h.2.1, h.2.2 (noLockedAbove_of_rows exEnvC _ 10 (by decide))⟩

end Migration
